import Mathlib

/-!
# SingleLinkedList: a shallow embedding of `single-linked-list.h`

The C++ class template `SingleLinkedList<Type>` manipulates raw `Node*` links, so the
embedding is an explicit memory model:

* the free store is a table of `Node` cells indexed by address; `new` hands out the next
  unused address and `delete` kills the cell, so a dangling pointer is detected on use;
* every `SingleLinkedList` object lives in a table of objects; its sentinel `head_` is part
  of the object, and a pointer to it is `Ptr.sentinel obj`;
* a member function is a state transformer on the memory that either returns normally,
  propagates `std::bad_alloc`, stops at a failed `assert`, or runs into undefined behaviour
  (null / dangling dereference); loops over pointer chains carry a fuel bound.

`size_t` is taken to be 64 bits wide and the free store never holds more than `limit`
addresses, `limit < 2 ^ 64` being the assumption that an address fits in a `size_t`.
-/

namespace SLL

/-! ## Memory model -/

/-- Values of type `Node*`: `nullptr`, the address of the sentinel `head_` embedded in a list
object, or the address of a node obtained from `new`. -/
inductive Ptr where
  | null
  | sentinel (obj : Nat)
  | heap (addr : Nat)
  deriving DecidableEq, Repr

/-- The source's `struct Node`: a value and the link to the next node. -/
structure Node (α : Type) where
  value : α
  next_node : Ptr
  deriving DecidableEq, Repr

/-- The data members of a `SingleLinkedList<Type>` object: the sentinel and the counter. -/
structure SingleLinkedList (α : Type) where
  head_ : Node α
  size_ : Nat
  deriving DecidableEq, Repr

/-- The source's `BasicIterator<ValueType>`: its only data member is `node_`. `Iterator` and
`ConstIterator` differ in the constness of the reference they yield, not in their state. -/
structure BasicIterator where
  node_ : Ptr
  deriving DecidableEq, Repr

/-- The machine state: free-store cells (`none` = released), list objects (`none` = lifetime
ended) and the number of addresses the free store can hand out. -/
structure Mem (α : Type) where
  heap : List (Option (Node α))
  objs : List (Option (SingleLinkedList α))
  limit : Nat
  deriving DecidableEq, Repr

/-- Number of values of `size_t` (64-bit). -/
def SIZE_RANGE : Nat := 2 ^ 64

/-- How a call can end. -/
inductive Outcome (α β : Type) where
  | ok (val : β) (m : Mem α)
  | bad_alloc (m : Mem α)
  | assert_fail
  | undefined
  | out_of_fuel
  deriving DecidableEq, Repr

/-- Computations over the memory. -/
def M (α β : Type) : Type := Mem α → Outcome α β

/-- Sequencing: anything but a normal return propagates. -/
def M.bind {α β γ : Type} (f : M α β) (g : β → M α γ) : M α γ := fun m =>
  match f m with
  | .ok v m1 => g v m1
  | .bad_alloc m1 => .bad_alloc m1
  | .assert_fail => .assert_fail
  | .undefined => .undefined
  | .out_of_fuel => .out_of_fuel

/-- Normal return. -/
def M.pure {α β : Type} (v : β) : M α β := fun m => .ok v m

instance (α : Type) : Monad (M α) where
  pure := M.pure
  bind := M.bind

/-- The `assert` of `<cassert>` in a build where assertions are active. -/
def assert {α : Type} (c : Bool) : M α Unit := fun m =>
  if c then .ok () m else .assert_fail

/-- Reads the node `*p`. Dereferencing `nullptr`, a released node or the sentinel of a dead
object is undefined behaviour. -/
def load {α : Type} (p : Ptr) : M α (Node α) := fun m =>
  match p with
  | .null => .undefined
  | .sentinel o =>
    match m.objs[o]? with
    | some (some l) => .ok l.head_ m
    | _ => .undefined
  | .heap a =>
    match m.heap[a]? with
    | some (some n) => .ok n m
    | _ => .undefined

/-- The assignment `p->next_node = q`. -/
def store_next {α : Type} (p q : Ptr) : M α Unit := fun m =>
  match p with
  | .null => .undefined
  | .sentinel o =>
    match m.objs[o]? with
    | some (some l) =>
      .ok () { m with objs := m.objs.set o (some { l with head_ := { l.head_ with next_node := q } }) }
    | _ => .undefined
  | .heap a =>
    match m.heap[a]? with
    | some (some n) => .ok () { m with heap := m.heap.set a (some { n with next_node := q }) }
    | _ => .undefined

/-- Reads `size_` of the object `o`. -/
def load_size {α : Type} (o : Nat) : M α Nat := fun m =>
  match m.objs[o]? with
  | some (some l) => .ok l.size_ m
  | _ => .undefined

/-- Writes `size_` of the object `o`. -/
def store_size {α : Type} (o : Nat) (s : Nat) : M α Unit := fun m =>
  match m.objs[o]? with
  | some (some l) => .ok () { m with objs := m.objs.set o (some { l with size_ := s }) }
  | _ => .undefined

/-- The expression `new Node(value, next)`: a fresh address, or `std::bad_alloc` when the free
store is exhausted. -/
def new_Node {α : Type} (value : α) (next : Ptr) : M α Ptr := fun m =>
  if m.heap.length < m.limit then
    .ok (.heap m.heap.length) { m with heap := m.heap ++ [some ⟨value, next⟩] }
  else .bad_alloc m

/-- The statement `delete p`: releases a live free-store node; `delete nullptr` does nothing;
anything else is undefined behaviour. -/
def delete_Node {α : Type} (p : Ptr) : M α Unit := fun m =>
  match p with
  | .null => .ok () m
  | .sentinel _ => .undefined
  | .heap a =>
    match m.heap[a]? with
    | some (some _) => .ok () { m with heap := m.heap.set a none }
    | _ => .undefined

/-- Storage for a new list object with its default member initialisers: `head_` is `Node()`
(value-initialised value, null link) and `size_ = 0`. This is also all that the defaulted
constructor `SingleLinkedList()` does. Returns the identity of the object. -/
def ctor_default {α : Type} [Inhabited α] : M α Nat := fun m =>
  .ok m.objs.length { m with objs := m.objs ++ [some ⟨⟨default, .null⟩, 0⟩] }

/-- End of the storage duration of object `o`. -/
def release_obj {α : Type} (o : Nat) : M α Unit := fun m =>
  match m.objs[o]? with
  | some (some _) => .ok () { m with objs := m.objs.set o none }
  | _ => .undefined

/-- A `throw` of `std::bad_alloc` in the current state. -/
def rethrow {α β : Type} : M α β := fun m => .bad_alloc m

/-! ## Iterators (`BasicIterator`) -/

/-- The source's `operator==` of `BasicIterator` (both overloads compare `node_`). -/
def BasicIterator.eq (a b : BasicIterator) : Bool := a.node_ == b.node_

/-- The source's `operator!=` of `BasicIterator`: `!(node_ == rhs.node_)`. -/
def BasicIterator.ne (a b : BasicIterator) : Bool := !(a.node_ == b.node_)

/-- Prefix `operator++`: `node_ = node_->next_node`; the value is the advanced iterator. -/
def BasicIterator.incr {α : Type} (it : BasicIterator) : M α BasicIterator := do
  let n ← load it.node_
  pure ⟨n.next_node⟩

/-- Postfix `operator++(int)`: copies the iterator, advances it with the prefix form and
returns the copy. The result is the pair (returned old value, iterator after the call). -/
def BasicIterator.post_incr {α : Type} (it : BasicIterator) :
    M α (BasicIterator × BasicIterator) := do
  let old_value := it
  let it1 ← BasicIterator.incr it
  pure (old_value, it1)

/-- The source's `operator*`: `node_->value`. -/
def BasicIterator.deref {α : Type} (it : BasicIterator) : M α α := do
  let n ← load it.node_
  pure n.value

/-! ## Member functions of `SingleLinkedList`; `this` is the identity of the object -/

/-- The source's `GetSize`. -/
def GetSize {α : Type} (this : Nat) : M α Nat := load_size this

/-- The source's `IsEmpty`: `size_ == 0`. -/
def IsEmpty {α : Type} (this : Nat) : M α Bool := do
  let s ← load_size this
  pure (s == 0)

/-- The source's `begin` / `cbegin`: `Iterator(head_.next_node)`. -/
def cbegin {α : Type} (this : Nat) : M α BasicIterator := do
  let h ← load (.sentinel this)
  pure ⟨h.next_node⟩

/-- The source's `end` / `cend`: `Iterator(nullptr)`. -/
def cend {α : Type} (_this : Nat) : M α BasicIterator := pure ⟨.null⟩

/-- The source's `before_begin` / `cbefore_begin`: `Iterator(&head_)`. -/
def before_begin {α : Type} (this : Nat) : M α BasicIterator := pure ⟨.sentinel this⟩

/-- The statement `++size_` on a 64-bit `size_t`. -/
def incr_size {α : Type} (this : Nat) : M α Unit := do
  let s ← load_size this
  store_size this ((s + 1) % SIZE_RANGE)

/-- The statement `--size_` on a 64-bit `size_t`. -/
def decr_size {α : Type} (this : Nat) : M α Unit := do
  let s ← load_size this
  store_size this ((s + (SIZE_RANGE - 1)) % SIZE_RANGE)

/-- The source's `PushFront`. -/
def PushFront {α : Type} (this : Nat) (value : α) : M α Unit := do
  let h ← load (.sentinel this)
  let p ← new_Node value h.next_node
  store_next (.sentinel this) p
  incr_size this

/-- The source's `InsertAfter`. -/
def InsertAfter {α : Type} (this : Nat) (pos : BasicIterator) (value : α) :
    M α BasicIterator := do
  assert (pos.node_ != .null)
  let n ← load pos.node_
  let p ← new_Node value n.next_node
  store_next pos.node_ p
  incr_size this
  let n1 ← load pos.node_
  pure ⟨n1.next_node⟩

/-- The source's `EraseAfter`. -/
def EraseAfter {α : Type} (this : Nat) (pos : BasicIterator) : M α BasicIterator := do
  let e ← IsEmpty this
  assert (!e && pos.node_ != .null)
  let n ← load pos.node_
  let succ ← load n.next_node
  let node_after_erase := succ.next_node
  let n1 ← load pos.node_
  delete_Node n1.next_node
  store_next pos.node_ node_after_erase
  decr_size this
  pure ⟨node_after_erase⟩

/-- The source's `PopFront`. -/
def PopFront {α : Type} (this : Nat) : M α Unit := do
  let e ← IsEmpty this
  assert (!e)
  let h ← load (.sentinel this)
  let first ← load h.next_node
  let tmp := first.next_node
  let h1 ← load (.sentinel this)
  delete_Node h1.next_node
  store_next (.sentinel this) tmp
  decr_size this

/-- The `while (head_.next_node)` loop of `Clear`, at most `fuel` iterations. -/
def Clear.loop {α : Type} (this : Nat) : Nat → M α Unit
  | 0 => fun _ => .out_of_fuel
  | fuel + 1 => do
    let h ← load (.sentinel this)
    if h.next_node != .null then do
      let tmp := h.next_node
      let t ← load h.next_node
      store_next (.sentinel this) t.next_node
      delete_Node tmp
      Clear.loop this fuel
    else pure ()

/-- The source's `Clear`. -/
def Clear {α : Type} (fuel : Nat) (this : Nat) : M α Unit := do
  Clear.loop this fuel
  store_size this 0

/-- The member `swap`: two `std::swap` calls, on `size_` and on `head_.next_node`. -/
def swap {α : Type} (this other : Nat) : M α Unit := do
  let s ← load_size this
  let so ← load_size other
  store_size this so
  store_size other s
  let h ← load (.sentinel this)
  let ho ← load (.sentinel other)
  store_next (.sentinel this) ho.next_node
  store_next (.sentinel other) h.next_node

/-- The destructor `~SingleLinkedList` (it calls `Clear`), followed by the end of the
object's storage. -/
def dtor {α : Type} (fuel : Nat) (this : Nat) : M α Unit := do
  Clear fuel this
  release_obj this

/-- A block that declares a local list object: `ctor` constructs it, `body` uses it, and its
destructor runs when the block is left, normally or by a propagating `std::bad_alloc`. -/
def with_local {α β : Type} (fuel : Nat) (ctor : M α Nat) (body : Nat → M α β) : M α β :=
  fun m =>
  match ctor m with
  | .ok o m1 =>
    match body o m1 with
    | .ok v m2 => (dtor fuel o >>= fun _ => pure v) m2
    | .bad_alloc m2 => (dtor fuel o >>= fun _ => rethrow) m2
    | .assert_fail => .assert_fail
    | .undefined => .undefined
    | .out_of_fuel => .out_of_fuel
  | .bad_alloc m1 => .bad_alloc m1
  | .assert_fail => .assert_fail
  | .undefined => .undefined
  | .out_of_fuel => .out_of_fuel

/-- A constructor call: members get their default initialisers, then the constructor body
runs; if the body throws, the object never comes to life and its storage is given back. -/
def construct {α : Type} [Inhabited α] (body : Nat → M α Unit) : M α Nat := fun m =>
  match ctor_default m with
  | .ok this m1 =>
    match body this m1 with
    | .ok _ m2 => .ok this m2
    | .bad_alloc m2 => (release_obj this >>= fun _ => rethrow) m2
    | .assert_fail => .assert_fail
    | .undefined => .undefined
    | .out_of_fuel => .out_of_fuel
  | .bad_alloc m1 => .bad_alloc m1
  | .assert_fail => .assert_fail
  | .undefined => .undefined
  | .out_of_fuel => .out_of_fuel

/-! ## `FillList` and the constructors -/

/-- What the template `FillList<It>` uses of its iterator type: `operator!=`, `operator*` and
prefix `operator++`. -/
structure InputIt (α It : Type) where
  ne : It → It → Bool
  deref : It → M α α
  incr : It → M α It

/-- Iterators of a `std::initializer_list<Type>` with backing array `values`: pointers into the
array, given by their index. -/
def initializer_list_it {α : Type} (values : List α) : InputIt α Nat where
  ne := fun i j => i != j
  deref := fun i m =>
    match values[i]? with
    | some v => .ok v m
    | none => .undefined
  incr := fun i => pure (i + 1)

/-- The list's own `ConstIterator` as the iterator type of `FillList`. -/
def const_iterator_it {α : Type} : InputIt α BasicIterator where
  ne := BasicIterator.ne
  deref := BasicIterator.deref
  incr := BasicIterator.incr

/-- The `for` loop of `FillList`: `for (it = first; it != last; ++it) pos = tmp.InsertAfter(pos, *it)`,
at most `fuel` tests of the loop condition. -/
def FillList.loop {α It : Type} (I : InputIt α It) (tmp : Nat) (last : It) :
    Nat → It → BasicIterator → M α Unit
  | 0, _, _ => fun _ => .out_of_fuel
  | fuel + 1, it, pos =>
    if I.ne it last then do
      let v ← I.deref it
      let pos1 ← InsertAfter tmp pos v
      let it1 ← I.incr it
      FillList.loop I tmp last fuel it1 pos1
    else pure ()

/-- The source's `FillList`: fills the local list `tmp` and swaps it into `*this`. -/
def FillList {α It : Type} [Inhabited α] (I : InputIt α It) (fuel : Nat) (this : Nat)
    (first last : It) : M α Unit :=
  with_local fuel ctor_default fun tmp => do
    let pos ← before_begin tmp
    FillList.loop I tmp last fuel first pos
    swap this tmp

/-- The constructor `SingleLinkedList(std::initializer_list<Type> values)`. -/
def ctor_initializer_list {α : Type} [Inhabited α] (fuel : Nat) (values : List α) : M α Nat :=
  construct fun this =>
    FillList (initializer_list_it values) fuel this 0 values.length

/-- The copy constructor `SingleLinkedList(const SingleLinkedList& other)`. -/
def ctor_copy {α : Type} [Inhabited α] (fuel : Nat) (other : Nat) : M α Nat :=
  construct fun this => do
    let s ← load_size this
    let h ← load (.sentinel this)
    assert (s == 0 && h.next_node == .null)
    let first ← cbegin other
    let last ← cend other
    FillList const_iterator_it fuel this first last

/-- The copy assignment `operator=`. -/
def assign {α : Type} [Inhabited α] (fuel : Nat) (this rhs : Nat) : M α Unit :=
  if this != rhs then
    with_local fuel (ctor_copy fuel rhs) fun rhs_copy => swap this rhs_copy
  else pure ()

/-! ## Free functions -/

/-- The free function `swap(lhs, rhs)`: `lhs.swap(rhs)`. -/
def free_swap {α : Type} (lhs rhs : Nat) : M α Unit := swap lhs rhs

/-- The four-iterator `std::equal` of `<algorithm>` on forward iterators: walks both ranges in
step, stops at the first unequal pair, and at the end requires both ranges exhausted. -/
def std_equal {α : Type} [BEq α] (last1 last2 : BasicIterator) :
    Nat → BasicIterator → BasicIterator → M α Bool
  | 0, _, _ => fun _ => .out_of_fuel
  | fuel + 1, first1, first2 =>
    if first1.ne last1 && first2.ne last2 then do
      let a ← first1.deref
      let b ← first2.deref
      if !(a == b) then pure false
      else do
        let n1 ← first1.incr
        let n2 ← first2.incr
        std_equal last1 last2 fuel n1 n2
    else pure (first1.eq last1 && first2.eq last2)

/-- The `std::lexicographical_compare` of `<algorithm>` with the element's `operator<`. -/
def std_lexicographical_compare {α : Type} (lt : α → α → Bool) (last1 last2 : BasicIterator) :
    Nat → BasicIterator → BasicIterator → M α Bool
  | 0, _, _ => fun _ => .out_of_fuel
  | fuel + 1, first1, first2 =>
    if first1.ne last1 && first2.ne last2 then do
      let a ← first1.deref
      let b ← first2.deref
      if lt a b then pure true
      else if lt b a then pure false
      else do
        let n1 ← first1.incr
        let n2 ← first2.incr
        std_lexicographical_compare lt last1 last2 fuel n1 n2
    else pure (first1.eq last1 && first2.ne last2)

/-- The source's `operator==` on lists. -/
def op_eq {α : Type} [BEq α] (fuel : Nat) (lhs rhs : Nat) : M α Bool := do
  let b1 ← cbegin lhs
  let e1 ← cend lhs
  let b2 ← cbegin rhs
  let e2 ← cend rhs
  std_equal e1 e2 fuel b1 b2

/-- The source's `operator!=` on lists: `!(lhs == rhs)`. -/
def op_ne {α : Type} [BEq α] (fuel : Nat) (lhs rhs : Nat) : M α Bool := do
  let r ← op_eq fuel lhs rhs
  pure (!r)

/-- The source's `operator<` on lists. -/
def op_lt {α : Type} (lt : α → α → Bool) (fuel : Nat) (lhs rhs : Nat) : M α Bool := do
  let b1 ← cbegin lhs
  let e1 ← cend lhs
  let b2 ← cbegin rhs
  let e2 ← cend rhs
  std_lexicographical_compare lt e1 e2 fuel b1 b2

/-- The source's `operator<=`: `(lhs < rhs) || (lhs == rhs)`, short-circuiting. -/
def op_le {α : Type} [BEq α] (lt : α → α → Bool) (fuel : Nat) (lhs rhs : Nat) : M α Bool := do
  let r ← op_lt lt fuel lhs rhs
  if r then pure true else op_eq fuel lhs rhs

/-- The source's `operator>`: `rhs < lhs`. -/
def op_gt {α : Type} (lt : α → α → Bool) (fuel : Nat) (lhs rhs : Nat) : M α Bool :=
  op_lt lt fuel rhs lhs

/-- The source's `operator>=`: `(rhs < lhs) || (rhs == lhs)`, short-circuiting. -/
def op_ge {α : Type} [BEq α] (lt : α → α → Bool) (fuel : Nat) (lhs rhs : Nat) : M α Bool := do
  let r ← op_lt lt fuel rhs lhs
  if r then pure true else op_eq fuel rhs lhs

/-! ## Observing a list through its public interface -/

/-- The loop `for (; it != last; ++it) out.push_back(*it)` over the list's iterators. -/
def traverse.loop {α : Type} (last : BasicIterator) : Nat → BasicIterator → M α (List α)
  | 0, _ => fun _ => .out_of_fuel
  | fuel + 1, it =>
    if it.ne last then do
      let v ← it.deref
      let it1 ← it.incr
      let rest ← traverse.loop last fuel it1
      pure (v :: rest)
    else pure []

/-- The elements seen by a traversal from `begin()` to `end()`. -/
def traverse {α : Type} (fuel : Nat) (this : Nat) : M α (List α) := do
  let first ← cbegin this
  let last ← cend this
  traverse.loop last fuel first

/-! ## Specification vocabulary -/

/-- The pointer that leads into a chain of cells `cs` which is followed by `q`. -/
def ptr_from {α : Type} (cs : List (Nat × α)) (q : Ptr) : Ptr :=
  match cs with
  | [] => q
  | c :: _ => .heap c.1

/-- The free store `h` holds the chain segment `cs` (pairs of address and value): every cell is
live, holds its value and links to the next cell, the last one linking to `q`. -/
def Seg {α : Type} (h : List (Option (Node α))) (cs : List (Nat × α)) (q : Ptr) : Prop :=
  match cs with
  | [] => True
  | c :: rest => h[c.1]? = some (some ⟨c.2, ptr_from rest q⟩) ∧ Seg h rest q

/-- The class invariant of the object `this` in memory `m`, with the chain made explicit: the
object is alive, following `next_node` from the sentinel visits exactly the cells `cs` and then
reaches `nullptr`, and `size_` is the number of those cells. -/
def Rep {α : Type} (m : Mem α) (this : Nat) (cs : List (Nat × α)) : Prop :=
  ∃ l, m.objs[this]? = some (some l) ∧ l.head_.next_node = ptr_from cs .null ∧
    Seg m.heap cs .null ∧ l.size_ = cs.length

/-- The class invariant: `size_` equals the number of nodes reachable from the sentinel by
`next_node` links until `nullptr`. -/
def Invariant {α : Type} (m : Mem α) (this : Nat) : Prop := ∃ cs, Rep m this cs

/-- The machine assumptions: the free store has not handed out more than `limit` addresses, and
an address fits in a `size_t`. -/
def Mem.ok {α : Type} (m : Mem α) : Prop :=
  m.heap.length ≤ m.limit ∧ m.limit < SIZE_RANGE

/-- What a client sees of the list `this` in memory `m`: a traversal from `begin()` to `end()`
returns `xs` and leaves the memory alone, and `GetSize()` returns the length of `xs`. -/
def Observes {α : Type} (m : Mem α) (this : Nat) (xs : List α) : Prop :=
  (∀ fuel, xs.length < fuel → traverse fuel this m = .ok xs m) ∧
    GetSize this m = .ok xs.length m

/-- The cursor at position `i` of a list with chain `cs`: position `0` is the sentinel
(`before_begin()`), position `i + 1` is the element of index `i`; past the chain it is the
past-the-end cursor. -/
def cursor_at {α : Type} (this : Nat) (cs : List (Nat × α)) : Nat → BasicIterator
  | 0 => ⟨.sentinel this⟩
  | i + 1 => ⟨ptr_from (cs.drop i) .null⟩

/-- The node a cursor references when it stands right after the cells `pre` of the chain of
`this`: the sentinel when `pre` is empty, else the last cell of `pre`. -/
def pos_after {α : Type} (this : Nat) (pre : List (Nat × α)) : Ptr :=
  match pre.getLast? with
  | none => .sentinel this
  | some c => .heap c.1

/-- The footprint of a step from `m` to `m1`: the allocation limit is kept, nothing already
allocated or constructed disappears from the tables, objects outside `os` and cells outside
`as` are left as they were, and the free store stays within its limit. -/
def Frame {α : Type} (m m1 : Mem α) (os : List Nat) (as : List Nat) : Prop :=
  m1.limit = m.limit ∧ m.heap.length ≤ m1.heap.length ∧ m.objs.length ≤ m1.objs.length ∧
    (∀ o, o < m.objs.length → o ∉ os → m1.objs[o]? = m.objs[o]?) ∧
    (∀ a, a < m.heap.length → a ∉ as → m1.heap[a]? = m.heap[a]?) ∧
    (m.heap.length ≤ m.limit → m1.heap.length ≤ m1.limit)

/-- What `FillList` needs of its input range: `Src m it vs` reads "in memory `m` the range from
`it` to `last` yields the values `vs`". The range ends exactly when `vs` is exhausted, reading
and advancing leave the memory alone, and the range is not disturbed by steps that only touch
cells at addresses from `h0` on. -/
structure IsSource {α It : Type} (I : InputIt α It) (last : It) (h0 : Nat)
    (Src : Mem α → It → List α → Prop) : Prop where
  done : ∀ m it, Src m it [] → I.ne it last = false
  more : ∀ m it v vs, Src m it (v :: vs) →
    I.ne it last = true ∧ I.deref it m = .ok v m ∧ ∃ it1, I.incr it m = .ok it1 m ∧ Src m it1 vs
  stable : ∀ m m1 it vs os as, Src m it vs → Frame m m1 os as → (∀ a ∈ as, h0 ≤ a) →
    Src m1 it vs

instance {α : Type} (m : Mem α) : Decidable m.ok :=
  inferInstanceAs (Decidable (m.heap.length ≤ m.limit ∧ m.limit < SIZE_RANGE))

/-- Element-wise equality of two value sequences, in the words of the specification: the same
number of elements and, at every index, elements that compare equal with `==`. -/
def SameElements {α : Type} [BEq α] (xs ys : List α) : Prop :=
  xs.length = ys.length ∧
    ∀ (i : Nat) (a b : α), xs[i]? = some a → ys[i]? = some b → (a == b) = true

/-- Lexicographic "less", in the words of the specification: either there is a first index at
which the two sequences differ and the element of `xs` there is less than that of `ys`, or
`xs` is a proper initial segment of `ys`. -/
def LexLess {α : Type} [LT α] (xs ys : List α) : Prop :=
  (∃ (i : Nat) (a b : α), xs[i]? = some a ∧ ys[i]? = some b ∧ a < b ∧
      ∀ j : Nat, j < i → xs[j]? = ys[j]?) ∨
    (xs.length < ys.length ∧ ys.take xs.length = xs)

/-- The call ended either by returning (then `P` holds of the returned value and the memory)
or by propagating `std::bad_alloc` (then `Q` holds of the memory); it did not stop at an
assertion, run into undefined behaviour, or run out of fuel. -/
def Outcome.ends_with {α β : Type} (r : Outcome α β) (P : β → Mem α → Prop)
    (Q : Mem α → Prop) : Prop :=
  match r with
  | .ok v m1 => P v m1
  | .bad_alloc m1 => Q m1
  | .assert_fail => False
  | .undefined => False
  | .out_of_fuel => False

/-- A memory with two lists: object `0` is `{7}` and object `1` is `{1, 2}`. -/
def two_lists : Mem Nat :=
  ⟨[some ⟨7, .null⟩, some ⟨1, .heap 2⟩, some ⟨2, .null⟩],
    [some ⟨⟨0, .heap 0⟩, 1⟩, some ⟨⟨0, .heap 1⟩, 2⟩], 8⟩

/-- The cursor reached from `it` by `n` applications of prefix `operator++`. -/
def advance {α : Type} : Nat → BasicIterator → M α BasicIterator
  | 0, it => pure it
  | n + 1, it => do
    let it1 ← it.incr
    advance n it1

/-- The calls `PushFront(v)` for the values `v` of `vs`, from the first to the last. -/
def push_front_all {α : Type} (this : Nat) : List α → M α Unit
  | [] => pure ()
  | v :: vs => do
    PushFront this v
    push_front_all this vs

/-- A mutating call on a list. The position of `InsertAfter` and `EraseAfter` is the cursor
obtained by advancing `before_begin()` `i` times. -/
inductive Mutation (α : Type) where
  | push_front (v : α)
  | pop_front
  | insert_after (i : Nat) (v : α)
  | erase_after (i : Nat)

/-- Performs one mutating call on the list `this`. -/
def Mutation.perform {α : Type} (this : Nat) : Mutation α → M α Unit
  | .push_front v => PushFront this v
  | .pop_front => PopFront this
  | .insert_after i v => do
    let first ← before_begin this
    let pos ← advance i first
    let _ ← InsertAfter this pos v
    pure ()
  | .erase_after i => do
    let first ← before_begin this
    let pos ← advance i first
    let _ ← EraseAfter this pos
    pure ()

/-- Performs a sequence of mutating calls on the list `this`, first to last. -/
def perform_all {α : Type} (this : Nat) : List (Mutation α) → M α Unit
  | [] => pure ()
  | op :: ops => do
    op.perform this
    perform_all this ops

/-- The precondition of a mutating call on a list of `n` elements: `PopFront` needs an element,
`InsertAfter` a live position, `EraseAfter` a position that has a successor. -/
def Mutation.precondition {α : Type} (n : Nat) : Mutation α → Prop
  | .push_front _ => True
  | .pop_front => 0 < n
  | .insert_after i _ => i ≤ n
  | .erase_after i => i < n

/-- The number of elements after a mutating call on a list of `n` elements. -/
def Mutation.size_after {α : Type} (n : Nat) : Mutation α → Nat
  | .push_front _ => n + 1
  | .pop_front => n - 1
  | .insert_after _ _ => n + 1
  | .erase_after _ => n - 1

/-- Every call of the sequence is within its precondition when the sequence is performed on a
list that starts with `n` elements. -/
def within_preconditions {α : Type} : Nat → List (Mutation α) → Prop
  | _, [] => True
  | n, op :: ops => op.precondition n ∧ within_preconditions (op.size_after n) ops

/-- An element type whose `==` is not reflexive, in the manner of `double` with its NaN: `nan`
compares unequal to every value, itself included. -/
inductive Fp where
  | nan
  | num (n : Nat)
  deriving Repr

instance : Inhabited Fp := ⟨.num 0⟩

instance : BEq Fp where
  beq
    | .num a, .num b => a == b
    | _, _ => false

/-! ## Basic facts about the memory model -/

@[simp] theorem bind_apply {α β γ : Type} (f : M α β) (g : β → M α γ) (m : Mem α) :
    (f >>= g) m = M.bind f g m := rfl

@[simp] theorem pure_apply {α β : Type} (v : β) (m : Mem α) :
    (pure v : M α β) m = .ok v m := rfl

theorem bind_ok {α β γ : Type} {f : M α β} {g : β → M α γ} {m m1 : Mem α} {v : β}
    (h : f m = .ok v m1) : M.bind f g m = g v m1 := by
  simp [M.bind, h]

theorem Seg_append {α : Type} (h : List (Option (Node α))) (pre suf : List (Nat × α)) (q : Ptr) :
    Seg h (pre ++ suf) q ↔ Seg h pre (ptr_from suf q) ∧ Seg h suf q := by
  induction pre with
  | nil => simp [Seg]
  | cons c rest ih =>
    cases rest with
    | nil => simp [Seg, ptr_from]
    | cons d rest2 =>
      simp only [List.cons_append, Seg, ptr_from] at ih ⊢
      rw [ih]
      tauto

theorem Seg_frame {α : Type} {h h1 : List (Option (Node α))} {cs : List (Nat × α)} {q : Ptr}
    (hs : Seg h cs q) (hf : ∀ c ∈ cs, h1[c.1]? = h[c.1]?) : Seg h1 cs q := by
  induction cs with
  | nil => trivial
  | cons c rest ih =>
    refine ⟨?_, ih hs.2 (fun d hd => hf d (List.mem_cons_of_mem _ hd))⟩
    rw [hf c (List.mem_cons_self _ _)]
    exact hs.1

theorem Seg_lt {α : Type} {h : List (Option (Node α))} {cs : List (Nat × α)} {q : Ptr}
    (hs : Seg h cs q) : ∀ c ∈ cs, c.1 < h.length := by
  induction cs with
  | nil => simp
  | cons c rest ih =>
    intro d hd
    rcases List.mem_cons.1 hd with rfl | hd
    · have := hs.1
      by_contra hlt
      rw [List.getElem?_eq_none (by omega)] at this
      cases this
    · exact ih hs.2 d hd

theorem Seg_inj {α : Type} {h : List (Option (Node α))} {cs cs1 : List (Nat × α)}
    (hs : Seg h cs .null) (hs1 : Seg h cs1 .null)
    (hp : ptr_from cs .null = ptr_from cs1 .null) : cs = cs1 := by
  induction cs generalizing cs1 with
  | nil =>
    cases cs1 with
    | nil => rfl
    | cons d r => simp [ptr_from] at hp
  | cons c rest ih =>
    cases cs1 with
    | nil => simp [ptr_from] at hp
    | cons d r =>
      simp only [ptr_from, Ptr.heap.injEq] at hp
      have h1 := hs.1
      have h2 := hs1.1
      rw [hp, h2] at h1
      simp only [Option.some.injEq, Node.mk.injEq] at h1
      have hr := ih hs.2 hs1.2 h1.2.symm
      have hc : c = d := Prod.ext hp h1.1.symm
      rw [hc, hr]

theorem Seg_nodup {α : Type} {h : List (Option (Node α))} {cs : List (Nat × α)}
    (hs : Seg h cs .null) : (cs.map Prod.fst).Nodup := by
  induction cs with
  | nil => simp
  | cons c rest ih =>
    rw [List.map_cons, List.nodup_cons]
    refine ⟨?_, ih hs.2⟩
    intro hmem
    obtain ⟨d, hd, hdc⟩ := List.mem_map.1 hmem
    obtain ⟨r1, r2, hsplit⟩ := List.append_of_mem hd
    have hrest := hs.2
    rw [hsplit, Seg_append] at hrest
    have hd1 := hrest.2.1
    have hc1 := hs.1
    rw [← hdc, hd1] at hc1
    simp only [Option.some.injEq, Node.mk.injEq] at hc1
    have heq : r2 = rest := Seg_inj hrest.2.2 hs.2 hc1.2
    have hlen := congrArg List.length hsplit
    rw [← heq] at hlen
    simp at hlen
    omega

theorem Seg_length_le {α : Type} {h : List (Option (Node α))} {cs : List (Nat × α)}
    (hs : Seg h cs .null) : cs.length ≤ h.length := by
  have hsub : cs.map Prod.fst ⊆ List.range h.length := by
    intro a ha
    obtain ⟨c, hc, rfl⟩ := List.mem_map.1 ha
    exact List.mem_range.2 (Seg_lt hs c hc)
  have := (List.subperm_of_subset (Seg_nodup hs) hsub).length_le
  simpa using this

@[simp] theorem ptr_from_nil {α : Type} (q : Ptr) : ptr_from ([] : List (Nat × α)) q = q := rfl

@[simp] theorem ptr_from_cons {α : Type} (c : Nat × α) (cs : List (Nat × α)) (q : Ptr) :
    ptr_from (c :: cs) q = .heap c.1 := rfl

theorem load_heap {α : Type} {m : Mem α} {a : Nat} {n : Node α}
    (h : m.heap[a]? = some (some n)) : load (.heap a) m = .ok n m := by
  simp [load, h]

theorem load_sentinel {α : Type} {m : Mem α} {o : Nat} {l : SingleLinkedList α}
    (h : m.objs[o]? = some (some l)) : load (.sentinel o) m = .ok l.head_ m := by
  simp [load, h]

theorem load_size_ok {α : Type} {m : Mem α} {o : Nat} {l : SingleLinkedList α}
    (h : m.objs[o]? = some (some l)) : load_size o m = .ok l.size_ m := by
  simp [load_size, h]

theorem traverse_loop_seg {α : Type} (m : Mem α) (cs : List (Nat × α))
    (hs : Seg m.heap cs .null) (fuel : Nat) (hf : cs.length < fuel) :
    traverse.loop ⟨.null⟩ fuel ⟨ptr_from cs .null⟩ m = .ok (cs.map Prod.snd) m := by
  induction cs generalizing fuel with
  | nil =>
    cases fuel with
    | zero => simp at hf
    | succ k => simp [traverse.loop, BasicIterator.ne]
  | cons c rest ih =>
    cases fuel with
    | zero => simp at hf
    | succ k =>
      have hk : rest.length < k := by simpa using hf
      simp [traverse.loop, BasicIterator.ne, BasicIterator.deref, BasicIterator.incr,
        M.bind, load_heap hs.1, ih hs.2 k hk]

theorem Rep_observes {α : Type} {m : Mem α} {this : Nat} {cs : List (Nat × α)}
    (h : Rep m this cs) : Observes m this (cs.map Prod.snd) := by
  obtain ⟨l, hl, hn, hs, hz⟩ := h
  constructor
  · intro fuel hf
    simp [traverse, cbegin, cend, M.bind, load_sentinel hl, hn]
    exact traverse_loop_seg m cs hs fuel (by simpa using hf)
  · simp [GetSize, load_size_ok hl, hz]

theorem size_incr_eq {n : Nat} (h : n + 1 < SIZE_RANGE) : (n + 1) % SIZE_RANGE = n + 1 :=
  Nat.mod_eq_of_lt h

theorem size_decr_eq {n : Nat} (h : n + 1 < SIZE_RANGE) :
    (n + 1 + (SIZE_RANGE - 1)) % SIZE_RANGE = n := by
  unfold SIZE_RANGE at *
  omega

theorem lookup_lt {β : Type} {xs : List (Option β)} {i : Nat} {x : Option β}
    (h : xs[i]? = some x) : i < xs.length := by
  by_contra hc
  rw [List.getElem?_eq_none (by omega)] at h
  cases h

theorem Frame.refl {α : Type} (m : Mem α) (os as : List Nat) : Frame m m os as :=
  ⟨rfl, le_refl _, le_refl _, fun _ _ _ => rfl, fun _ _ _ => rfl, fun h => h⟩

theorem Frame.trans {α : Type} {m m1 m2 : Mem α} {os os1 as as1 : List Nat}
    (h : Frame m m1 os as) (h1 : Frame m1 m2 os1 as1) :
    Frame m m2 (os ++ os1) (as ++ as1) := by
  obtain ⟨a1, a2, a3, a4, a5, a6⟩ := h
  obtain ⟨b1, b2, b3, b4, b5, b6⟩ := h1
  refine ⟨by rw [b1, a1], le_trans a2 b2, le_trans a3 b3, ?_, ?_, fun hh => b6 (a6 hh)⟩
  · intro o ho hn
    simp only [List.mem_append, not_or] at hn
    rw [b4 o (by omega) hn.2, a4 o ho hn.1]
  · intro a ha hn
    simp only [List.mem_append, not_or] at hn
    rw [b5 a (by omega) hn.2, a5 a ha hn.1]

theorem Frame.mono {α : Type} {m m1 : Mem α} {os os1 as as1 : List Nat}
    (h : Frame m m1 os as) (ho : os ⊆ os1) (ha : as ⊆ as1) : Frame m m1 os1 as1 := by
  obtain ⟨a1, a2, a3, a4, a5, a6⟩ := h
  exact ⟨a1, a2, a3, fun o h1 h2 => a4 o h1 (fun hc => h2 (ho hc)),
    fun a h1 h2 => a5 a h1 (fun hc => h2 (ha hc)), a6⟩

theorem Frame.ok {α : Type} {m m1 : Mem α} {os as : List Nat}
    (h : Frame m m1 os as) (hok : m.ok) : m1.ok :=
  ⟨h.2.2.2.2.2 hok.1, by rw [h.1]; exact hok.2⟩

theorem Rep_frame {α : Type} {m m1 : Mem α} {os as : List Nat} {o : Nat}
    {cs : List (Nat × α)} (hr : Rep m o cs) (hf : Frame m m1 os as) (ho : o ∉ os)
    (ha : ∀ c ∈ cs, c.1 ∉ as) : Rep m1 o cs := by
  obtain ⟨l, hl, hn, hs, hz⟩ := hr
  refine ⟨l, ?_, hn, ?_, hz⟩
  · rw [hf.2.2.2.1 o (lookup_lt hl) ho]
    exact hl
  · exact Seg_frame hs (fun c hc => hf.2.2.2.2.1 c.1 (Seg_lt hs c hc) (ha c hc))

theorem Rep_size_lt {α : Type} {m : Mem α} {o : Nat} {cs : List (Nat × α)}
    (hr : Rep m o cs) (hok : m.ok) : cs.length < SIZE_RANGE := by
  obtain ⟨l, hl, hn, hs, hz⟩ := hr
  have := Seg_length_le hs
  have h1 := hok.1
  have h2 := hok.2
  omega

theorem Rep_inj {α : Type} {m : Mem α} {o : Nat} {cs cs1 : List (Nat × α)}
    (hr : Rep m o cs) (hr1 : Rep m o cs1) : cs = cs1 := by
  obtain ⟨l, hl, hn, hs, hz⟩ := hr
  obtain ⟨l1, hl1, hn1, hs1, hz1⟩ := hr1
  rw [hl] at hl1
  simp only [Option.some.injEq] at hl1
  subst hl1
  exact Seg_inj hs hs1 (by rw [← hn, ← hn1])

theorem PushFront_spec {α : Type} {m : Mem α} {this : Nat} {cs : List (Nat × α)} (v : α)
    (hrep : Rep m this cs) (hok : m.ok) :
    (m.heap.length < m.limit →
      ∃ m1, PushFront this v m = .ok () m1 ∧ Rep m1 this ((m.heap.length, v) :: cs) ∧
        m1.heap.length = m.heap.length + 1 ∧ Frame m m1 [this] []) ∧
    (m.limit ≤ m.heap.length → PushFront this v m = .bad_alloc m) := by
  have hsz := Rep_size_lt hrep hok
  obtain ⟨l, hl, hn, hs, hz⟩ := hrep
  have hlt := lookup_lt hl
  have hlen := Seg_length_le hs
  constructor
  · intro hroom
    have hsz1 : l.size_ + 1 < SIZE_RANGE := by
      have h1 := hok.2
      omega
    simp only [PushFront, bind_apply, M.bind, load, hl, new_Node, hroom, if_true, store_next,
      incr_size, load_size, store_size, List.getElem?_set_self hlt, List.set_set,
      size_incr_eq hsz1]
    refine ⟨_, rfl, ⟨_, List.getElem?_set_self hlt, rfl, ⟨?_, ?_⟩, by simp [hz]⟩, by simp, ?_⟩
    · simp [hn]
    · exact Seg_frame hs (fun c hc => List.getElem?_append_left (Seg_lt hs c hc))
    · refine ⟨rfl, by simp, by simp, ?_, ?_, fun _ => by simpa using hroom⟩
      · intro o _ hne
        simp only [List.mem_singleton] at hne
        exact List.getElem?_set_ne (Ne.symm hne)
      · intro a ha _
        exact List.getElem?_append_left ha
  · intro hfull
    simp [PushFront, M.bind, load, hl, new_Node, Nat.not_lt.2 hfull]

theorem pos_after_nil {α : Type} (this : Nat) :
    pos_after this ([] : List (Nat × α)) = .sentinel this := rfl

theorem pos_after_concat {α : Type} (this : Nat) (pre : List (Nat × α)) (c : Nat × α) :
    pos_after this (pre ++ [c]) = .heap c.1 := by
  simp [pos_after]

theorem InsertAfter_spec {α : Type} {m : Mem α} {this : Nat} (pre suf : List (Nat × α)) (v : α)
    (hrep : Rep m this (pre ++ suf)) (hok : m.ok) :
    (m.heap.length < m.limit →
      ∃ m1, InsertAfter this ⟨pos_after this pre⟩ v m = .ok ⟨.heap m.heap.length⟩ m1 ∧
        Rep m1 this (pre ++ (m.heap.length, v) :: suf) ∧
        m1.heap.length = m.heap.length + 1 ∧ Frame m m1 [this] (pre.map Prod.fst)) ∧
    (m.limit ≤ m.heap.length → InsertAfter this ⟨pos_after this pre⟩ v m = .bad_alloc m) := by
  have hsz := Rep_size_lt hrep hok
  obtain ⟨l, hl, hn, hs, hz⟩ := hrep
  have hlt := lookup_lt hl
  have hlen := Seg_length_le hs
  have hnd := Seg_nodup hs
  rcases List.eq_nil_or_concat pre with rfl | ⟨pre1, c, hpre⟩
  · rw [pos_after_nil]
    simp only [List.nil_append] at hn hs hz hlen hsz ⊢
    constructor
    · intro hroom
      have hsz1 : l.size_ + 1 < SIZE_RANGE := by
        have h1 := hok.2
        omega
      simp only [InsertAfter, bind_apply, M.bind, assert, load, hl, new_Node, hroom, if_true,
        store_next, incr_size, load_size, store_size, List.getElem?_set_self hlt, List.set_set,
        size_incr_eq hsz1, pure_apply, bne_iff_ne, ne_eq, reduceCtorEq, not_false_eq_true,
        decide_True]
      refine ⟨_, rfl, ⟨_, List.getElem?_set_self hlt, rfl, ⟨?_, ?_⟩, by simp [hz]⟩, by simp, ?_⟩
      · simp [hn]
      · exact Seg_frame hs (fun c hc => List.getElem?_append_left (Seg_lt hs c hc))
      · refine ⟨rfl, by simp, by simp, ?_, ?_, fun _ => by simpa using hroom⟩
        · intro o _ hne
          simp only [List.mem_singleton] at hne
          exact List.getElem?_set_ne (Ne.symm hne)
        · intro a ha _
          exact List.getElem?_append_left ha
    · intro hfull
      simp [InsertAfter, M.bind, assert, load, hl, new_Node, Nat.not_lt.2 hfull]
  · rw [List.concat_eq_append] at hpre
    subst hpre
    rw [pos_after_concat]
    rw [List.append_assoc, Seg_append] at hs
    have hc : m.heap[c.1]? = some (some ⟨c.2, ptr_from suf .null⟩) := hs.2.1
    have hclt := lookup_lt hc
    constructor
    · intro hroom
      have hsz1 : l.size_ + 1 < SIZE_RANGE := by
        have h1 := hok.2
        omega
      have hc1 : ∀ x : Option (Node α), (m.heap ++ [x])[c.1]? = some (some ⟨c.2, ptr_from suf .null⟩) :=
        fun x => by rw [List.getElem?_append_left hclt, hc]
      have hc2 : ∀ (x y : Option (Node α)), ((m.heap ++ [x]).set c.1 y)[c.1]? = some y :=
        fun x y => List.getElem?_set_self (by simp; omega)
      simp only [InsertAfter, bind_apply, M.bind, assert, load, hl, hc, hc1, hc2, new_Node, hroom, if_true,
        store_next, incr_size, load_size, store_size, List.getElem?_set_self hlt, List.set_set,
        size_incr_eq hsz1, pure_apply, bne_iff_ne, ne_eq, reduceCtorEq, not_false_eq_true,
        decide_True]
      have hfr : ∀ a, a < m.heap.length → a ≠ c.1 →
          ((m.heap ++ [some (⟨v, ptr_from suf .null⟩ : Node α)]).set c.1
            (some ⟨c.2, .heap m.heap.length⟩))[a]? = m.heap[a]? := by
        intro a ha hne
        rw [List.getElem?_set_ne (Ne.symm hne), List.getElem?_append_left ha]
      have hnd1 : ∀ d ∈ pre1 ++ suf, d.1 ≠ c.1 := by
        intro d hd heq
        simp only [List.map_append, List.map_cons, List.map_nil, List.append_assoc,
          List.singleton_append] at hnd
        have h1 := List.nodup_middle.1 hnd
        rw [← List.map_append, List.nodup_cons] at h1
        exact h1.1 (heq ▸ List.mem_map_of_mem Prod.fst hd)
      refine ⟨_, rfl, ⟨_, List.getElem?_set_self hlt, ?_, ?_, by simp [hz]; omega⟩, by simp, ?_⟩
      · simp only [hn]
        cases pre1 <;> rfl
      · rw [List.append_assoc, Seg_append]
        refine ⟨Seg_frame hs.1 (fun d hd => hfr d.1 (Seg_lt hs.1 d hd)
          (hnd1 d (List.mem_append_left _ hd))), hc2 _ _, ?_, ?_⟩
        · rw [List.getElem?_set_ne (Nat.ne_of_lt hclt), List.getElem?_concat_length]
        · exact Seg_frame hs.2.2 (fun d hd => hfr d.1 (Seg_lt hs.2.2 d hd)
            (hnd1 d (List.mem_append_right _ hd)))
      · refine ⟨rfl, by simp, by simp, ?_, ?_, fun _ => by simpa using hroom⟩
        · intro o _ hne
          simp only [List.mem_singleton] at hne
          exact List.getElem?_set_ne (Ne.symm hne)
        · intro a ha hna
          refine hfr a ha (fun heq => hna ?_)
          rw [heq]
          simp
    · intro hfull
      simp [InsertAfter, M.bind, assert, load, hl, hc, new_Node, Nat.not_lt.2 hfull]

theorem EraseAfter_spec {α : Type} {m : Mem α} {this : Nat} (pre : List (Nat × α))
    (c : Nat × α) (suf : List (Nat × α)) (hrep : Rep m this (pre ++ c :: suf)) (hok : m.ok) :
    ∃ m1, EraseAfter this ⟨pos_after this pre⟩ m = .ok ⟨ptr_from suf .null⟩ m1 ∧
      Rep m1 this (pre ++ suf) ∧ m1.heap[c.1]? = some none ∧
      m1.heap.length = m.heap.length ∧
      Frame m m1 [this] ((pre ++ [c]).map Prod.fst) := by
  have hsz := Rep_size_lt hrep hok
  obtain ⟨l, hl, hn, hs, hz⟩ := hrep
  have hlt := lookup_lt hl
  have hnd := Seg_nodup hs
  rw [Seg_append] at hs
  have hc : m.heap[c.1]? = some (some ⟨c.2, ptr_from suf .null⟩) := hs.2.1
  have hclt := lookup_lt hc
  have hsz1 : (pre.length + suf.length) + 1 < SIZE_RANGE := by
    simp only [List.length_append, List.length_cons] at hsz
    omega
  have hz1 : l.size_ = (pre.length + suf.length) + 1 := by
    rw [hz]
    simp only [List.length_append, List.length_cons]
    omega
  have hne0 : ¬ (pre.length + suf.length + 1 = 0) := by omega
  have hnd1 : ∀ d ∈ pre ++ suf, d.1 ≠ c.1 := by
    intro d hd heq
    simp only [List.map_append, List.map_cons] at hnd
    have h1 := List.nodup_middle.1 hnd
    rw [← List.map_append, List.nodup_cons] at h1
    exact h1.1 (heq ▸ List.mem_map_of_mem Prod.fst hd)
  rcases List.eq_nil_or_concat pre with rfl | ⟨pre1, p, hpre⟩
  · rw [pos_after_nil]
    simp only [List.nil_append, ptr_from_cons] at hn hnd1 ⊢
    simp [EraseAfter, IsEmpty, M.bind, assert, load, load_size, hl, hn, hc, hz1,
      delete_Node, store_next, decr_size, store_size, hlt, size_decr_eq hsz1]
    have hsz2 : (suf.length + 1 + (SIZE_RANGE - 1)) % SIZE_RANGE = suf.length :=
      size_decr_eq (by simpa using hsz1)
    refine ⟨⟨_, List.getElem?_set_self hlt, rfl, ?_, hsz2⟩, List.getElem?_set_self hclt, ?_⟩
    · exact Seg_frame hs.2.2 (fun d hd => by
        rw [List.getElem?_set_ne (Ne.symm (hnd1 d hd))])
    · refine ⟨rfl, by simp, by simp, ?_, ?_, fun h => by simpa using h⟩
      · intro o _ hne
        simp only [List.mem_singleton] at hne
        exact List.getElem?_set_ne (Ne.symm hne)
      · intro a _ hna
        simp only [List.mem_singleton] at hna
        exact List.getElem?_set_ne (Ne.symm hna)
  · rw [List.concat_eq_append] at hpre
    subst hpre
    rw [pos_after_concat]
    rw [Seg_append] at hs
    have hp : m.heap[p.1]? = some (some ⟨p.2, .heap c.1⟩) := hs.1.2.1
    have hplt := lookup_lt hp
    have hpc : p.1 ≠ c.1 := hnd1 p (by simp)
    have hp1 : ∀ y : Option (Node α), (m.heap.set c.1 y)[p.1]? = some (some ⟨p.2, .heap c.1⟩) :=
      fun y => by rw [List.getElem?_set_ne (Ne.symm hpc), hp]
    simp [EraseAfter, IsEmpty, M.bind, assert, load, load_size, hl, hp, hp1, hc, hz1,
      delete_Node, store_next, decr_size, store_size, hlt, size_decr_eq hsz1]
    have hsz2 : (pre1.length + 1 + suf.length + 1 + (SIZE_RANGE - 1)) % SIZE_RANGE
        = pre1.length + 1 + suf.length :=
      size_decr_eq (by simpa using hsz1)
    have hfr : ∀ a, a ≠ c.1 → a ≠ p.1 →
        ((m.heap.set c.1 none).set p.1 (some ⟨p.2, ptr_from suf .null⟩))[a]? = m.heap[a]? := by
      intro a h1 h2
      rw [List.getElem?_set_ne (Ne.symm h2), List.getElem?_set_ne (Ne.symm h1)]
    have hnd2 : ∀ d ∈ pre1 ++ suf, d.1 ≠ p.1 := by
      intro d hd heq
      simp only [List.map_append, List.map_cons, List.map_nil, List.append_assoc,
        List.singleton_append] at hnd
      have h1 := List.nodup_middle.1 hnd
      rw [List.nodup_cons] at h1
      refine h1.1 ?_
      rw [← heq]
      rcases List.mem_append.1 hd with h2 | h2
      · exact List.mem_append_left _ (List.mem_map_of_mem Prod.fst h2)
      · exact List.mem_append_right _ (List.mem_cons_of_mem _ (List.mem_map_of_mem Prod.fst h2))
    have hset : ∀ y : Option (Node α), ((m.heap.set c.1 none).set p.1 y)[p.1]? = some y :=
      fun y => List.getElem?_set_self (by simpa using hplt)
    refine ⟨⟨_, List.getElem?_set_self hlt, ?_, ?_, by simp [hsz2]; omega⟩, ?_, ?_⟩
    · simp only [hn]
      cases pre1 <;> rfl
    · rw [Seg_append]
      refine ⟨Seg_frame hs.1.1 (fun d hd => hfr d.1
          (hnd1 d (by simp [hd])) (hnd2 d (List.mem_append_left _ hd))), hset _, ?_⟩
      exact Seg_frame hs.2.2 (fun d hd => hfr d.1
          (hnd1 d (by simp [hd])) (hnd2 d (List.mem_append_right _ hd)))
    · rw [List.getElem?_set_ne hpc]
      exact List.getElem?_set_self hclt
    · refine ⟨rfl, by simp, by simp, ?_, ?_, fun h => by simpa using h⟩
      · intro o _ hne
        simp only [List.mem_singleton] at hne
        exact List.getElem?_set_ne (Ne.symm hne)
      · intro a _ hna
        simp only [List.mem_append, List.mem_cons, List.mem_singleton, not_or, List.mem_nil_iff,
          or_false] at hna
        exact hfr a hna.2.2 hna.2.1

theorem PopFront_spec {α : Type} {m : Mem α} {this : Nat} (c : Nat × α)
    (cs : List (Nat × α)) (hrep : Rep m this (c :: cs)) (hok : m.ok) :
    ∃ m1, PopFront this m = .ok () m1 ∧ Rep m1 this cs ∧ m1.heap[c.1]? = some none ∧
      m1.heap.length = m.heap.length ∧ Frame m m1 [this] [c.1] := by
  have hsz := Rep_size_lt hrep hok
  obtain ⟨l, hl, hn, hs, hz⟩ := hrep
  have hlt := lookup_lt hl
  have hnd := Seg_nodup hs
  have hc : m.heap[c.1]? = some (some ⟨c.2, ptr_from cs .null⟩) := hs.1
  have hclt := lookup_lt hc
  simp only [ptr_from_cons] at hn
  simp only [List.length_cons] at hz hsz
  have hnd1 : ∀ d ∈ cs, d.1 ≠ c.1 := by
    intro d hd heq
    rw [List.map_cons, List.nodup_cons] at hnd
    exact hnd.1 (heq ▸ List.mem_map_of_mem Prod.fst hd)
  simp [PopFront, IsEmpty, M.bind, assert, load, load_size, hl, hn, hc, hz,
    delete_Node, store_next, decr_size, store_size, hlt, size_decr_eq hsz]
  refine ⟨⟨_, List.getElem?_set_self hlt, rfl, ?_, rfl⟩, List.getElem?_set_self hclt, ?_⟩
  · exact Seg_frame hs.2 (fun d hd => by
      rw [List.getElem?_set_ne (Ne.symm (hnd1 d hd))])
  · refine ⟨rfl, by simp, by simp, ?_, ?_, fun h => by simpa using h⟩
    · intro o _ hne
      simp only [List.mem_singleton] at hne
      exact List.getElem?_set_ne (Ne.symm hne)
    · intro a _ hna
      simp only [List.mem_singleton] at hna
      exact List.getElem?_set_ne (Ne.symm hna)

theorem Clear_loop_spec {α : Type} (this : Nat) (cs : List (Nat × α)) :
    ∀ (m : Mem α) (l : SingleLinkedList α) (fuel : Nat),
      m.objs[this]? = some (some l) → l.head_.next_node = ptr_from cs .null →
      Seg m.heap cs .null → cs.length < fuel →
      ∃ m1, Clear.loop this fuel m = .ok () m1 ∧
        m1.objs[this]? = some (some ⟨⟨l.head_.value, .null⟩, l.size_⟩) ∧
        (∀ c ∈ cs, m1.heap[c.1]? = some none) ∧ m1.heap.length = m.heap.length ∧
        Frame m m1 [this] (cs.map Prod.fst) := by
  induction cs with
  | nil =>
    intro m l fuel hl hn _ hf
    obtain ⟨k, rfl⟩ : ∃ k, fuel = k + 1 := ⟨fuel - 1, by omega⟩
    simp only [ptr_from_nil] at hn
    refine ⟨m, ?_, ?_, by simp, rfl, Frame.refl m _ _⟩
    · simp [Clear.loop, M.bind, load, hl, hn]
    · rw [hl, ← hn]
  | cons c rest ih =>
    intro m l fuel hl hn hs hf
    obtain ⟨k, rfl⟩ : ∃ k, fuel = k + 1 := ⟨fuel - 1, by omega⟩
    have hk : rest.length < k := by simpa using hf
    have hlt := lookup_lt hl
    have hnd := Seg_nodup hs
    have hc : m.heap[c.1]? = some (some ⟨c.2, ptr_from rest .null⟩) := hs.1
    have hclt := lookup_lt hc
    simp only [ptr_from_cons] at hn
    have hnd1 : ∀ d ∈ rest, d.1 ≠ c.1 := by
      intro d hd heq
      rw [List.map_cons, List.nodup_cons] at hnd
      exact hnd.1 (heq ▸ List.mem_map_of_mem Prod.fst hd)
    have hs1 : Seg (m.heap.set c.1 none) rest .null :=
      Seg_frame hs.2 (fun d hd => by rw [List.getElem?_set_ne (Ne.symm (hnd1 d hd))])
    obtain ⟨m1, h1, h2, h3, h4, h5⟩ := ih
      ⟨m.heap.set c.1 none, m.objs.set this (some ⟨⟨l.head_.value, ptr_from rest .null⟩, l.size_⟩),
        m.limit⟩ ⟨⟨l.head_.value, ptr_from rest .null⟩, l.size_⟩ k
      (List.getElem?_set_self hlt) rfl hs1 hk
    have hf0 : Frame m ⟨m.heap.set c.1 none,
        m.objs.set this (some ⟨⟨l.head_.value, ptr_from rest .null⟩, l.size_⟩), m.limit⟩
        [this] [c.1] := by
      refine ⟨rfl, by simp, by simp, ?_, ?_, fun h => by simpa using h⟩
      · intro o _ hne
        simp only [List.mem_singleton] at hne
        exact List.getElem?_set_ne (Ne.symm hne)
      · intro a _ hna
        simp only [List.mem_singleton] at hna
        exact List.getElem?_set_ne (Ne.symm hna)
    refine ⟨m1, ?_, h2, ?_, by simpa using h4, (hf0.trans h5).mono (by simp) (by simp)⟩
    · simp [Clear.loop, M.bind, load, hl, hn, hc, store_next, delete_Node, h1]
    · intro d hd
      rcases List.mem_cons.1 hd with rfl | hd
      · rw [h5.2.2.2.2.1 d.1 (by simpa using hclt) (fun hmem => by
          obtain ⟨e, he, hee⟩ := List.mem_map.1 hmem
          exact hnd1 e he hee)]
        exact List.getElem?_set_self hclt
      · exact h3 d hd

theorem Clear_spec {α : Type} {m : Mem α} {this : Nat} {cs : List (Nat × α)} (fuel : Nat)
    (hrep : Rep m this cs) (hf : cs.length < fuel) :
    ∃ m1, Clear fuel this m = .ok () m1 ∧ Rep m1 this [] ∧
      (∀ c ∈ cs, m1.heap[c.1]? = some none) ∧ m1.heap.length = m.heap.length ∧
      Frame m m1 [this] (cs.map Prod.fst) := by
  obtain ⟨l, hl, hn, hs, hz⟩ := hrep
  obtain ⟨m1, h1, h2, h3, h4, h5⟩ := Clear_loop_spec this cs m l fuel hl hn hs hf
  have hlt := lookup_lt h2
  have hf1 : Frame m1 ⟨m1.heap, m1.objs.set this (some ⟨⟨l.head_.value, .null⟩, 0⟩), m1.limit⟩
      [this] [] := by
    refine ⟨rfl, le_refl _, by simp, ?_, fun _ _ _ => rfl, fun h => h⟩
    intro o _ hne
    simp only [List.mem_singleton] at hne
    exact List.getElem?_set_ne (Ne.symm hne)
  refine ⟨⟨m1.heap, m1.objs.set this (some ⟨⟨l.head_.value, .null⟩, 0⟩), m1.limit⟩, ?_,
    ⟨_, List.getElem?_set_self hlt, rfl, trivial, rfl⟩, h3, h4,
    (h5.trans hf1).mono (by simp) (by simp)⟩
  simp [Clear, M.bind, h1, store_size, h2]

theorem store_size_ok {α : Type} {m : Mem α} {o : Nat} {l : SingleLinkedList α} (s : Nat)
    (h : m.objs[o]? = some (some l)) :
    store_size o s m = .ok () ⟨m.heap, m.objs.set o (some ⟨l.head_, s⟩), m.limit⟩ := by
  simp [store_size, h]

theorem store_next_sentinel {α : Type} {m : Mem α} {o : Nat} {l : SingleLinkedList α} (q : Ptr)
    (h : m.objs[o]? = some (some l)) :
    store_next (.sentinel o) q m =
      .ok () ⟨m.heap, m.objs.set o (some ⟨⟨l.head_.value, q⟩, l.size_⟩), m.limit⟩ := by
  simp [store_next, h]

theorem set_frame_objs {α : Type} (m : Mem α) (os : List Nat) (objs : List (Option (SingleLinkedList α)))
    (hlen : objs.length = m.objs.length)
    (h : ∀ o, o ∉ os → objs[o]? = m.objs[o]?) :
    Frame m ⟨m.heap, objs, m.limit⟩ os [] :=
  ⟨rfl, le_refl _, by simp [hlen], fun o _ hn => h o hn, fun _ _ _ => rfl, fun h => h⟩

theorem swap_spec {α : Type} {m : Mem α} {a b : Nat} {ca cb : List (Nat × α)}
    (ha : Rep m a ca) (hb : Rep m b cb) :
    ∃ m1, swap a b m = .ok () m1 ∧ Rep m1 a cb ∧ Rep m1 b ca ∧ m1.heap = m.heap ∧
      Frame m m1 [a, b] [] := by
  by_cases hab : a = b
  · subst hab
    have hc := Rep_inj ha hb
    subst hc
    obtain ⟨l, hl, hn, hs, hz⟩ := ha
    have hlt := lookup_lt hl
    have e1 := load_size_ok hl
    have e2 := store_size_ok l.size_ hl
    have hl2 : (m.objs.set a (some ⟨l.head_, l.size_⟩))[a]? = some (some ⟨l.head_, l.size_⟩) :=
      List.getElem?_set_self hlt
    have e3 := store_size_ok (m := ⟨m.heap, m.objs.set a (some ⟨l.head_, l.size_⟩), m.limit⟩)
      l.size_ hl2
    simp only [List.set_set] at e3
    have e4 := load_sentinel (m := ⟨m.heap, m.objs.set a (some ⟨l.head_, l.size_⟩), m.limit⟩) hl2
    have e5 := store_next_sentinel
      (m := ⟨m.heap, m.objs.set a (some ⟨l.head_, l.size_⟩), m.limit⟩) l.head_.next_node hl2
    simp only [List.set_set] at e5
    have hr : Rep (⟨m.heap, m.objs.set a (some ⟨l.head_, l.size_⟩), m.limit⟩ : Mem α) a ca :=
      ⟨_, List.getElem?_set_self hlt, hn, hs, hz⟩
    refine ⟨⟨m.heap, m.objs.set a (some ⟨l.head_, l.size_⟩), m.limit⟩, ?_, hr, hr, rfl, ?_⟩
    · simp only [swap, bind_apply, bind_ok e1, bind_ok e2, bind_ok e3, bind_ok e4, bind_ok e5]
      exact e5
    · refine set_frame_objs m _ _ (by simp) (fun o hne => ?_)
      simp only [List.mem_cons, List.mem_singleton, or_self, List.mem_nil_iff, or_false] at hne
      exact List.getElem?_set_ne (Ne.symm hne)
  · obtain ⟨la, hla, hna, hsa, hza⟩ := ha
    obtain ⟨lb, hlb, hnb, hsb, hzb⟩ := hb
    have hlta := lookup_lt hla
    have hltb := lookup_lt hlb
    have hba : b ≠ a := fun h => hab h.symm
    have e1 := load_size_ok hla
    have e2 := load_size_ok hlb
    have e3 := store_size_ok lb.size_ hla
    have hb1 : (m.objs.set a (some ⟨la.head_, lb.size_⟩))[b]? = some (some lb) := by
      rw [List.getElem?_set_ne hab, hlb]
    have e4 := store_size_ok (m := ⟨m.heap, m.objs.set a (some ⟨la.head_, lb.size_⟩), m.limit⟩)
      la.size_ hb1
    have ha2 : ((m.objs.set a (some ⟨la.head_, lb.size_⟩)).set b (some ⟨lb.head_, la.size_⟩))[a]?
        = some (some ⟨la.head_, lb.size_⟩) := by
      rw [List.getElem?_set_ne hba]
      exact List.getElem?_set_self hlta
    have hb2 : ((m.objs.set a (some ⟨la.head_, lb.size_⟩)).set b (some ⟨lb.head_, la.size_⟩))[b]?
        = some (some ⟨lb.head_, la.size_⟩) :=
      List.getElem?_set_self (by simpa using hltb)
    have e5 := load_sentinel (m := ⟨m.heap, (m.objs.set a (some ⟨la.head_, lb.size_⟩)).set b
      (some ⟨lb.head_, la.size_⟩), m.limit⟩) ha2
    have e6 := load_sentinel (m := ⟨m.heap, (m.objs.set a (some ⟨la.head_, lb.size_⟩)).set b
      (some ⟨lb.head_, la.size_⟩), m.limit⟩) hb2
    have e7 := store_next_sentinel (m := ⟨m.heap, (m.objs.set a (some ⟨la.head_, lb.size_⟩)).set b
      (some ⟨lb.head_, la.size_⟩), m.limit⟩) lb.head_.next_node ha2
    have hb3 : (((m.objs.set a (some ⟨la.head_, lb.size_⟩)).set b (some ⟨lb.head_, la.size_⟩)).set a
        (some ⟨⟨la.head_.value, lb.head_.next_node⟩, lb.size_⟩))[b]?
        = some (some ⟨lb.head_, la.size_⟩) := by
      rw [List.getElem?_set_ne hab]
      exact hb2
    have e8 := store_next_sentinel (m := ⟨m.heap, ((m.objs.set a (some ⟨la.head_, lb.size_⟩)).set b
      (some ⟨lb.head_, la.size_⟩)).set a (some ⟨⟨la.head_.value, lb.head_.next_node⟩, lb.size_⟩),
      m.limit⟩) la.head_.next_node hb3
    refine ⟨⟨m.heap, (((m.objs.set a (some ⟨la.head_, lb.size_⟩)).set b
      (some ⟨lb.head_, la.size_⟩)).set a (some ⟨⟨la.head_.value, lb.head_.next_node⟩, lb.size_⟩)).set
      b (some ⟨⟨lb.head_.value, la.head_.next_node⟩, la.size_⟩), m.limit⟩, ?_, ?_, ?_, rfl, ?_⟩
    · simp only [swap, bind_apply, bind_ok e1, bind_ok e2, bind_ok e3, bind_ok e4, bind_ok e5,
        bind_ok e6, bind_ok e7]
      exact e8
    · refine ⟨⟨⟨la.head_.value, lb.head_.next_node⟩, lb.size_⟩, ?_, hnb, hsb, hzb⟩
      show (List.set _ b _)[a]? = _
      rw [List.getElem?_set_ne hba]
      exact List.getElem?_set_self (by simpa using hlta)
    · exact ⟨⟨⟨lb.head_.value, la.head_.next_node⟩, la.size_⟩,
        List.getElem?_set_self (by simpa using hltb), hna, hsa, hza⟩
    · refine set_frame_objs m _ _ (by simp) (fun o hne => ?_)
      simp only [List.mem_cons, List.mem_singleton, List.mem_nil_iff, or_false, not_or] at hne
      rw [List.getElem?_set_ne (Ne.symm hne.2), List.getElem?_set_ne (Ne.symm hne.1),
        List.getElem?_set_ne (Ne.symm hne.2), List.getElem?_set_ne (Ne.symm hne.1)]

theorem Frame.weaken {α : Type} {m m1 : Mem α} {os os1 as as1 : List Nat}
    (h : Frame m m1 os as) (ho : ∀ o ∈ os, o < m.objs.length → o ∈ os1)
    (ha : ∀ a ∈ as, a < m.heap.length → a ∈ as1) : Frame m m1 os1 as1 := by
  obtain ⟨a1, a2, a3, a4, a5, a6⟩ := h
  exact ⟨a1, a2, a3, fun o h1 h2 => a4 o h1 (fun hc => h2 (ho o hc h1)),
    fun a h1 h2 => a5 a h1 (fun hc => h2 (ha a hc h1)), a6⟩

theorem release_obj_spec {α : Type} {m : Mem α} {o : Nat} {l : SingleLinkedList α}
    (h : m.objs[o]? = some (some l)) :
    ∃ m1, release_obj o m = .ok () m1 ∧ m1.objs[o]? = some none ∧ m1.heap = m.heap ∧
      Frame m m1 [o] [] := by
  have hlt := lookup_lt h
  refine ⟨⟨m.heap, m.objs.set o none, m.limit⟩, by simp [release_obj, h],
    List.getElem?_set_self hlt, rfl, set_frame_objs m _ _ (by simp) (fun p hne => ?_)⟩
  simp only [List.mem_singleton] at hne
  exact List.getElem?_set_ne (Ne.symm hne)

theorem dtor_spec {α : Type} {m : Mem α} {this : Nat} {cs : List (Nat × α)} (fuel : Nat)
    (hrep : Rep m this cs) (hf : cs.length < fuel) :
    ∃ m1, dtor fuel this m = .ok () m1 ∧ m1.objs[this]? = some none ∧
      (∀ c ∈ cs, m1.heap[c.1]? = some none) ∧ m1.heap.length = m.heap.length ∧
      Frame m m1 [this] (cs.map Prod.fst) := by
  obtain ⟨m1, h1, h2, h3, h4, h5⟩ := Clear_spec fuel hrep hf
  obtain ⟨l, hl, -⟩ := h2
  obtain ⟨m2, g1, g2, g3, g4⟩ := release_obj_spec hl
  refine ⟨m2, ?_, g2, ?_, by rw [g3, h4], (h5.trans g4).mono (by simp) (by simp)⟩
  · simp only [dtor, bind_apply, bind_ok h1]
    exact g1
  · intro c hc
    rw [g3]
    exact h3 c hc

theorem ctor_default_spec {α : Type} [Inhabited α] (m : Mem α) :
    ∃ m1, (ctor_default : M α Nat) m = .ok m.objs.length m1 ∧ Rep m1 m.objs.length [] ∧
      m1.heap = m.heap ∧ m1.objs.length = m.objs.length + 1 ∧ Frame m m1 [] [] := by
  refine ⟨⟨m.heap, m.objs ++ [some (⟨⟨default, .null⟩, 0⟩ : SingleLinkedList α)], m.limit⟩, rfl,
    ⟨_, List.getElem?_concat_length _ _, rfl, trivial, rfl⟩, rfl, by simp, ?_⟩
  exact ⟨rfl, le_refl _, by simp, fun o ho _ => List.getElem?_append_left ho,
    fun _ _ _ => rfl, fun h => h⟩

theorem with_local_ok {α β : Type} {fuel : Nat} {ctor : M α Nat} {body : Nat → M α β}
    {m m1 m2 m3 : Mem α} {o : Nat} {v : β} (h1 : ctor m = .ok o m1)
    (h2 : body o m1 = .ok v m2) (h3 : dtor fuel o m2 = .ok () m3) :
    with_local fuel ctor body m = .ok v m3 := by
  simp [with_local, h1, h2, M.bind, h3]

theorem with_local_bad {α β : Type} {fuel : Nat} {ctor : M α Nat} {body : Nat → M α β}
    {m m1 m2 m3 : Mem α} {o : Nat} (h1 : ctor m = .ok o m1)
    (h2 : body o m1 = .bad_alloc m2) (h3 : dtor fuel o m2 = .ok () m3) :
    with_local fuel ctor body m = .bad_alloc m3 := by
  simp [with_local, h1, h2, M.bind, h3, rethrow]

theorem with_local_ctor_bad {α β : Type} {fuel : Nat} {ctor : M α Nat} {body : Nat → M α β}
    {m m1 : Mem α} (h1 : ctor m = .bad_alloc m1) :
    with_local fuel ctor body m = .bad_alloc m1 := by
  simp [with_local, h1]

theorem construct_ok {α : Type} [Inhabited α] {body : Nat → M α Unit} {m m1 m2 : Mem α}
    {o : Nat} (h1 : (ctor_default : M α Nat) m = .ok o m1) (h2 : body o m1 = .ok () m2) :
    construct body m = .ok o m2 := by
  simp [construct, h1, h2]

theorem construct_bad {α : Type} [Inhabited α] {body : Nat → M α Unit} {m m1 m2 m3 : Mem α}
    {o : Nat} (h1 : (ctor_default : M α Nat) m = .ok o m1) (h2 : body o m1 = .bad_alloc m2)
    (h3 : release_obj o m2 = .ok () m3) :
    construct body m = .bad_alloc m3 := by
  simp [construct, h1, h2, M.bind, h3, rethrow]

theorem FillList_loop_spec {α It : Type} (I : InputIt α It) (last : It) (h0 tmp : Nat)
    (Src : Mem α → It → List α → Prop) (hsrc : IsSource I last h0 Src) (vs : List α) :
    ∀ (m : Mem α) (it : It) (pre : List (Nat × α)) (fuel : Nat),
      Src m it vs → Rep m tmp pre → m.ok → h0 ≤ m.heap.length → (∀ c ∈ pre, h0 ≤ c.1) →
      vs.length < fuel →
      ∃ m1 new, Rep m1 tmp (pre ++ new) ∧ (∀ c ∈ new, h0 ≤ c.1) ∧ new.length ≤ vs.length ∧
        Frame m m1 [tmp] (pre.map Prod.fst) ∧
        ((m.heap.length + vs.length ≤ m.limit ∧
            FillList.loop I tmp last fuel it ⟨pos_after tmp pre⟩ m = .ok () m1 ∧
            new.map Prod.snd = vs) ∨
          (m.limit < m.heap.length + vs.length ∧
            FillList.loop I tmp last fuel it ⟨pos_after tmp pre⟩ m = .bad_alloc m1)) := by
  induction vs with
  | nil =>
    intro m it pre fuel hs hrep hok _ _ hf
    obtain ⟨k, rfl⟩ : ∃ k, fuel = k + 1 := ⟨fuel - 1, by omega⟩
    refine ⟨m, [], by simpa using hrep, by simp, le_refl _, Frame.refl m _ _, Or.inl ⟨?_, ?_, rfl⟩⟩
    · simpa using hok.1
    · simp [FillList.loop, hsrc.done m it hs]
  | cons v rest ih =>
    intro m it pre fuel hs hrep hok hh0 hpre hf
    obtain ⟨k, rfl⟩ : ∃ k, fuel = k + 1 := ⟨fuel - 1, by omega⟩
    have hk : rest.length < k := by simpa using hf
    obtain ⟨hne, hd, -⟩ := hsrc.more m it v rest hs
    have hrep0 : Rep m tmp (pre ++ []) := by simpa using hrep
    obtain ⟨hroom, hfull⟩ := InsertAfter_spec pre [] v hrep0 hok
    by_cases hr : m.heap.length < m.limit
    · obtain ⟨m1, e1, r1, l1, f1⟩ := hroom hr
      have hs1 : Src m1 it (v :: rest) :=
        hsrc.stable m m1 it _ _ _ hs f1 (fun a ha => by
          obtain ⟨c, hc, rfl⟩ := List.mem_map.1 ha
          exact hpre c hc)
      obtain ⟨-, -, it1, hi, hs2⟩ := hsrc.more m1 it v rest hs1
      have hpre1 : ∀ c ∈ pre ++ [(m.heap.length, v)], h0 ≤ c.1 := by
        intro c hc
        rcases List.mem_append.1 hc with h | h
        · exact hpre c h
        · simp only [List.mem_singleton] at h
          rw [h]
          exact hh0
      obtain ⟨m2, new, r2, n2, l2, f2, hcase⟩ := ih m1 it1 (pre ++ [(m.heap.length, v)]) k hs2 r1
        (f1.ok hok) (by omega) hpre1 hk
      have hstep : FillList.loop I tmp last (k + 1) it ⟨pos_after tmp pre⟩ m =
          FillList.loop I tmp last k it1 ⟨pos_after tmp (pre ++ [(m.heap.length, v)])⟩ m1 := by
        rw [pos_after_concat]
        simp only [FillList.loop, hne, if_true, bind_apply, bind_ok hd, bind_ok e1, bind_ok hi]
      refine ⟨m2, (m.heap.length, v) :: new, by simpa using r2, ?_, by simpa using l2, ?_, ?_⟩
      · intro c hc
        rcases List.mem_cons.1 hc with h | h
        · rw [h]
          exact hh0
        · exact n2 c h
      · refine (f1.trans f2).weaken (by simp) ?_
        intro a ha halt
        simp only [List.map_append, List.map_cons, List.map_nil, List.mem_append,
          List.mem_singleton, or_self_left] at ha
        rcases ha with h | h
        · exact h
        · omega
      · rw [hstep]
        have hlim := f1.1
        rcases hcase with ⟨c1, c2, c3⟩ | ⟨c1, c2⟩
        · exact Or.inl ⟨by simp only [List.length_cons]; omega, c2, by simp [c3]⟩
        · exact Or.inr ⟨by simp only [List.length_cons]; omega, c2⟩
    · have e1 := hfull (by omega)
      refine ⟨m, [], by simpa using hrep, by simp, by simp, Frame.refl m _ _, Or.inr ⟨?_, ?_⟩⟩
      · simp only [List.length_cons]
        omega
      · simp only [FillList.loop, hne, if_true, bind_apply, bind_ok hd]
        simp [M.bind, e1]

theorem FillList_spec {α It : Type} [Inhabited α] (I : InputIt α It) (first last : It)
    (Src : Mem α → It → List α → Prop) (vs : List α) (m : Mem α) (this : Nat)
    (cs : List (Nat × α)) (fuel : Nat) (hsrc : IsSource I last m.heap.length Src)
    (hs : Src m first vs) (hrep : Rep m this cs) (hok : m.ok) (hfv : vs.length < fuel)
    (hfc : cs.length < fuel) :
    (m.heap.length + vs.length ≤ m.limit →
      ∃ m1 new, FillList I fuel this first last m = .ok () m1 ∧ Rep m1 this new ∧
        new.map Prod.snd = vs ∧ (∀ c ∈ new, m.heap.length ≤ c.1) ∧
        (∀ c ∈ cs, m1.heap[c.1]? = some none) ∧ Frame m m1 [this] (cs.map Prod.fst)) ∧
    (m.limit < m.heap.length + vs.length →
      ∃ m1, FillList I fuel this first last m = .bad_alloc m1 ∧ Frame m m1 [] []) := by
  obtain ⟨ma, ea, ra, ha, la, fa⟩ := ctor_default_spec m
  have hsa : Src ma first vs := hsrc.stable m ma first vs _ _ hs fa (by simp)
  have hthis : this < m.objs.length := by
    obtain ⟨l, hl, -⟩ := hrep
    exact lookup_lt hl
  have hne : this ≠ m.objs.length := Nat.ne_of_lt hthis
  have hcs : ∀ c ∈ cs, c.1 < m.heap.length := by
    obtain ⟨l, -, -, hseg, -⟩ := hrep
    exact Seg_lt hseg
  obtain ⟨mb, new, rb, nb, lb, fb, hcase⟩ := FillList_loop_spec I last m.heap.length
    m.objs.length Src hsrc vs ma first [] fuel hsa ra (fa.ok hok) (by rw [ha]) (by simp) hfv
  have rthis : Rep mb this cs := by
    have r1 : Rep ma this cs := Rep_frame hrep fa (by simp) (by simp)
    exact Rep_frame r1 fb (by simpa using hne) (by simp)
  simp only [List.nil_append] at rb
  have hlen : ma.heap.length = m.heap.length := by rw [ha]
  have hlim : ma.limit = m.limit := fa.1
  have hfab := fa.trans fb
  constructor
  · intro hroom
    rcases hcase with ⟨-, e1, e2⟩ | ⟨c1, -⟩
    · obtain ⟨mc, ec, rc1, rc2, hc, fc⟩ := swap_spec rthis rb
      obtain ⟨md, ed, od, cd, ld, fd⟩ := dtor_spec fuel rc2 hfc
      have rd : Rep md this new := Rep_frame rc1 fd (by simpa using hne) (by
        intro c hc hmem
        obtain ⟨d, hd, hdc⟩ := List.mem_map.1 hmem
        have h1 := nb c hc
        have h2 := hcs d hd
        omega)
      have hbody : (do
          let pos ← before_begin m.objs.length
          FillList.loop I m.objs.length last fuel first pos
          swap this m.objs.length : M α Unit) ma = .ok () mc := by
        simp only [before_begin, bind_apply, M.bind, pure_apply]
        rw [show (⟨Ptr.sentinel m.objs.length⟩ : BasicIterator) =
          ⟨pos_after m.objs.length ([] : List (Nat × α))⟩ from rfl, e1]
        exact ec
      refine ⟨md, new, with_local_ok ea hbody ed, rd, e2, nb, cd, ?_⟩
      · refine ((hfab.trans fc).trans fd).weaken ?_ ?_
        · intro o ho holt
          simp only [List.nil_append, List.singleton_append, List.mem_append, List.mem_cons,
            List.mem_singleton, List.mem_nil_iff, or_false] at ho
          simp only [List.mem_singleton]
          omega
        · intro a ha _
          simpa using ha
    · omega
  · intro hfull
    rcases hcase with ⟨c1, -⟩ | ⟨-, e1⟩
    · omega
    · obtain ⟨md, ed, od, cd, ld, fd⟩ := dtor_spec fuel rb (by omega)
      have hbody : (do
          let pos ← before_begin m.objs.length
          FillList.loop I m.objs.length last fuel first pos
          swap this m.objs.length : M α Unit) ma = .bad_alloc mb := by
        simp only [before_begin, bind_apply, M.bind, pure_apply]
        rw [show (⟨Ptr.sentinel m.objs.length⟩ : BasicIterator) =
          ⟨pos_after m.objs.length ([] : List (Nat × α))⟩ from rfl, e1]
      refine ⟨md, with_local_bad ea hbody ed, ?_⟩
      refine (hfab.trans fd).weaken ?_ ?_
      · intro o ho holt
        simp only [List.nil_append, List.singleton_append, List.mem_cons,
          List.mem_singleton, List.mem_nil_iff, or_false, or_self] at ho
        omega
      · intro a ha halt
        simp only [List.nil_append, List.map_nil] at ha
        obtain ⟨c, hc, rfl⟩ := List.mem_map.1 ha
        have := nb c hc
        omega

theorem initializer_list_source {α : Type} (values : List α) (h0 : Nat) :
    IsSource (initializer_list_it values) values.length h0
      (fun _ i vs => i ≤ values.length ∧ values.drop i = vs) where
  done := by
    intro m i h
    have hlen := congrArg List.length h.2
    simp only [List.length_drop, List.length_nil] at hlen
    have : i = values.length := by
      have := h.1
      omega
    simp [initializer_list_it, this]
  more := by
    intro m i v vs h
    have hlen := congrArg List.length h.2
    simp only [List.length_drop, List.length_cons] at hlen
    have hi : i < values.length := by omega
    have hget : values[i]? = some v := by
      have h1 := congrArg (fun l => l[0]?) h.2
      simpa [List.getElem?_drop] using h1
    refine ⟨?_, ?_, i + 1, rfl, by omega, ?_⟩
    · simp [initializer_list_it]
      omega
    · simp [initializer_list_it, hget]
    · have h2 := h.2
      rw [List.drop_eq_getElem_cons hi] at h2
      exact (List.cons.inj h2).2
  stable := fun _ _ _ _ _ _ h _ _ => h

theorem ctor_initializer_list_spec {α : Type} [Inhabited α] (values : List α) (m : Mem α)
    (fuel : Nat) (hok : m.ok) (hf : values.length < fuel) :
    (m.heap.length + values.length ≤ m.limit →
      ∃ m1 new, ctor_initializer_list fuel values m = .ok m.objs.length m1 ∧
        Rep m1 m.objs.length new ∧ new.map Prod.snd = values ∧
        (∀ c ∈ new, m.heap.length ≤ c.1) ∧ Frame m m1 [] []) ∧
    (m.limit < m.heap.length + values.length →
      ∃ m1, ctor_initializer_list fuel values m = .bad_alloc m1 ∧ Frame m m1 [] []) := by
  obtain ⟨ma, ea, ra, ha, la, fa⟩ := ctor_default_spec m
  have hsrc := initializer_list_source values ma.heap.length
  obtain ⟨hgood, hbad⟩ := FillList_spec (initializer_list_it values) 0 values.length _ values ma
    m.objs.length [] fuel hsrc ⟨Nat.zero_le _, rfl⟩ ra (fa.ok hok) hf (by simp; omega)
  have hlim := fa.1
  rw [ha] at hgood hbad
  constructor
  · intro hroom
    obtain ⟨m1, new, e1, r1, v1, n1, -, f1⟩ := hgood (by omega)
    refine ⟨m1, new, construct_ok ea e1, r1, v1, n1, (fa.trans f1).weaken ?_ (by simp)⟩
    intro o ho holt
    simp only [List.nil_append, List.mem_singleton] at ho
    omega
  · intro hfull
    obtain ⟨m1, e1, f1⟩ := hbad (by omega)
    have hobj : ∃ l, m1.objs[m.objs.length]? = some (some l) := by
      obtain ⟨l, hl, -⟩ := ra
      exact ⟨l, by rw [f1.2.2.2.1 _ (lookup_lt hl) (by simp), hl]⟩
    obtain ⟨l, hl⟩ := hobj
    obtain ⟨m2, e2, -, -, f2⟩ := release_obj_spec hl
    refine ⟨m2, construct_bad ea e1 e2, ((fa.trans f1).trans f2).weaken ?_ (by simp)⟩
    intro o ho holt
    simp only [List.nil_append, List.mem_singleton] at ho
    omega

theorem Rep_isEmpty {α : Type} {m : Mem α} {this : Nat} {cs : List (Nat × α)}
    (h : Rep m this cs) : IsEmpty this m = .ok cs.isEmpty m := by
  obtain ⟨l, hl, -, -, hz⟩ := h
  simp only [IsEmpty, bind_apply, bind_ok (load_size_ok hl), pure_apply, hz]
  cases cs <;> rfl

/-! ## The claims -/

/-- C1: for every list of values `L`, on a machine whose free store has room for `L.length`
more nodes, the constructor from the initializer list `L` returns a list whose traversal from
`begin()` to `end()` yields exactly `L` in order and whose `GetSize()` is the length of `L`;
`IsEmpty()` holds exactly when `L` is empty. -/
theorem C1_initializer_list_construction {α : Type} [Inhabited α] (L : List α) (m : Mem α)
    (fuel : Nat) (hok : m.ok) (hroom : m.heap.length + L.length ≤ m.limit)
    (hfuel : L.length < fuel) :
    ∃ this m1, ctor_initializer_list fuel L m = .ok this m1 ∧ Observes m1 this L ∧
      IsEmpty this m1 = .ok L.isEmpty m1 := by
  obtain ⟨m1, new, e1, r1, v1, -⟩ := (ctor_initializer_list_spec L m fuel hok hfuel).1 hroom
  refine ⟨m.objs.length, m1, e1, v1 ▸ Rep_observes r1, ?_⟩
  rw [Rep_isEmpty r1, ← v1]
  cases new <;> rfl

theorem C1_initializer_list_construction_witness :
    (⟨[], [], 8⟩ : Mem Nat).ok ∧ (⟨[], [], 8⟩ : Mem Nat).heap.length + [1, 2, 3].length ≤ 8 ∧
    [1, 2, 3].length < 4 ∧
    ∃ this m1, ctor_initializer_list 4 [1, 2, 3] (⟨[], [], 8⟩ : Mem Nat) = .ok this m1 ∧
      Observes m1 this [1, 2, 3] ∧ IsEmpty this m1 = .ok false m1 :=
  ⟨by decide, by decide, by decide,
    C1_initializer_list_construction [1, 2, 3] ⟨[], [], 8⟩ 4 (by decide) (by decide) (by decide)⟩

theorem cursor_at_eq {α : Type} (this : Nat) (cs : List (Nat × α)) (i : Nat)
    (hi : i ≤ cs.length) : cursor_at this cs i = ⟨pos_after this (cs.take i)⟩ := by
  cases i with
  | zero => rfl
  | succ k =>
    have hk : k < cs.length := hi
    have h1 : cs.drop k = cs[k] :: cs.drop (k + 1) := List.drop_eq_getElem_cons hk
    have h2 : (cs.take (k + 1)).getLast? = some cs[k] := by
      rw [List.getLast?_take]
      simp [hk]
    simp only [cursor_at, pos_after, h1, h2, ptr_from_cons]

theorem load_pos_after {α : Type} {m : Mem α} {this : Nat} (pre suf : List (Nat × α))
    (hrep : Rep m this (pre ++ suf)) :
    ∃ n, load (pos_after this pre) m = .ok n m ∧ n.next_node = ptr_from suf .null := by
  obtain ⟨l, hl, hn, hs, hz⟩ := hrep
  rcases List.eq_nil_or_concat pre with rfl | ⟨pre1, c, hpre⟩
  · exact ⟨l.head_, load_sentinel hl, by simpa using hn⟩
  · rw [List.concat_eq_append] at hpre
    subst hpre
    rw [pos_after_concat]
    rw [List.append_assoc, Seg_append] at hs
    have hc : m.heap[c.1]? = some (some ⟨c.2, ptr_from suf .null⟩) := hs.2.1
    exact ⟨_, load_heap hc, rfl⟩

theorem Rep_invariant {α : Type} {m : Mem α} {this : Nat} {cs : List (Nat × α)}
    (h : Rep m this cs) : Invariant m this := ⟨cs, h⟩

set_option maxHeartbeats 1000000 in
/-- C2 (as stated) fails: on the list `{1, 2}`, calling `EraseAfter` on the cursor returned by
`InsertAfter(before_begin(), 10)` removes the former first element `1`, not the new node: the
traversal is `1, 2` before the two calls and `10, 2` after them. -/
theorem C2_erase_after_returned_cursor_counterexample :
    (do
        let s ← ctor_initializer_list 3 [1, 2]
        let before ← traverse 3 s
        let p ← before_begin s
        let it ← InsertAfter s p 10
        let _ ← EraseAfter s it
        let after ← traverse 3 s
        pure (before, after) : M Nat (List Nat × List Nat)) ⟨[], [], 8⟩
      = .ok ([1, 2], [10, 2])
          ⟨[none, some ⟨2, .null⟩, some ⟨10, .heap 1⟩], [some ⟨⟨0, .heap 2⟩, 2⟩, none], 8⟩ := by
  have e1 : ctor_initializer_list 3 [1, 2] (⟨[], [], 8⟩ : Mem Nat) = .ok 0
      ⟨[some ⟨1, .heap 1⟩, some ⟨2, .null⟩], [some ⟨⟨0, .heap 0⟩, 2⟩, none], 8⟩ := rfl
  have e2 : traverse 3 0 (⟨[some ⟨1, .heap 1⟩, some ⟨2, .null⟩],
      [some ⟨⟨0, .heap 0⟩, 2⟩, none], 8⟩ : Mem Nat) = .ok [1, 2] _ := rfl
  have e3 : InsertAfter 0 ⟨.sentinel 0⟩ 10 (⟨[some ⟨1, .heap 1⟩, some ⟨2, .null⟩],
      [some ⟨⟨0, .heap 0⟩, 2⟩, none], 8⟩ : Mem Nat) = .ok ⟨.heap 2⟩
      ⟨[some ⟨1, .heap 1⟩, some ⟨2, .null⟩, some ⟨10, .heap 0⟩],
        [some ⟨⟨0, .heap 2⟩, 3⟩, none], 8⟩ := rfl
  have e4 : EraseAfter 0 ⟨.heap 2⟩ (⟨[some ⟨1, .heap 1⟩, some ⟨2, .null⟩, some ⟨10, .heap 0⟩],
      [some ⟨⟨0, .heap 2⟩, 3⟩, none], 8⟩ : Mem Nat) = .ok ⟨.heap 1⟩
      ⟨[none, some ⟨2, .null⟩, some ⟨10, .heap 1⟩], [some ⟨⟨0, .heap 2⟩, 2⟩, none], 8⟩ := rfl
  have e5 : traverse 3 0 (⟨[none, some ⟨2, .null⟩, some ⟨10, .heap 1⟩],
      [some ⟨⟨0, .heap 2⟩, 2⟩, none], 8⟩ : Mem Nat) = .ok [10, 2] _ := rfl
  simp only [bind_apply, M.bind, before_begin, pure_apply, e1, e2, e3, e4, e5]

/-- C2 (amended): for every well-formed list and every valid live position `p` (index `0` is
`before_begin()`, index `i + 1` the element `i`), `InsertAfter(p, v)` followed by
`EraseAfter(p)` on the same position `p` leaves the list observably unchanged: the same
element sequence and the same `GetSize()` as before the two calls. -/
theorem C2_insert_then_erase_same_position {α : Type} (m : Mem α) (this : Nat)
    (cs : List (Nat × α)) (i : Nat) (v : α) (hrep : Rep m this cs) (hok : m.ok)
    (hi : i ≤ cs.length) (hroom : m.heap.length < m.limit) :
    ∃ it m1 r m2, InsertAfter this (cursor_at this cs i) v m = .ok it m1 ∧
      EraseAfter this (cursor_at this cs i) m1 = .ok r m2 ∧
      Observes m this (cs.map Prod.snd) ∧ Observes m2 this (cs.map Prod.snd) ∧
      Invariant m2 this := by
  have hsplit : cs.take i ++ cs.drop i = cs := List.take_append_drop i cs
  have hrep1 : Rep m this (cs.take i ++ cs.drop i) := by rw [hsplit]; exact hrep
  obtain ⟨m1, e1, r1, -, f1⟩ := (InsertAfter_spec (cs.take i) (cs.drop i) v hrep1 hok).1 hroom
  obtain ⟨m2, e2, r2, -⟩ := EraseAfter_spec (cs.take i) (m.heap.length, v) (cs.drop i) r1
    (f1.ok hok)
  rw [hsplit] at r2
  rw [cursor_at_eq this cs i hi]
  exact ⟨_, m1, _, m2, e1, e2, Rep_observes hrep, Rep_observes r2, Rep_invariant r2⟩

theorem C2_insert_then_erase_same_position_witness :
    Rep (⟨[some ⟨1, .heap 1⟩, some ⟨2, .null⟩], [some ⟨⟨0, .heap 0⟩, 2⟩], 8⟩ : Mem Nat) 0
        [(0, 1), (1, 2)] ∧
      ∃ it m1 r m2,
        InsertAfter 0 (cursor_at 0 [(0, 1), (1, 2)] 1) 10
          (⟨[some ⟨1, .heap 1⟩, some ⟨2, .null⟩], [some ⟨⟨0, .heap 0⟩, 2⟩], 8⟩ : Mem Nat)
          = .ok it m1 ∧
        EraseAfter 0 (cursor_at 0 [(0, 1), (1, 2)] 1) m1 = .ok r m2 ∧
        Observes (⟨[some ⟨1, .heap 1⟩, some ⟨2, .null⟩], [some ⟨⟨0, .heap 0⟩, 2⟩], 8⟩ : Mem Nat)
          0 [1, 2] ∧
        Observes m2 0 [1, 2] ∧ Invariant m2 0 :=
  ⟨⟨_, rfl, rfl, ⟨rfl, rfl, trivial⟩, rfl⟩,
    C2_insert_then_erase_same_position _ 0 [(0, 1), (1, 2)] 1 10
      ⟨_, rfl, rfl, ⟨rfl, rfl, trivial⟩, rfl⟩ (by decide) (by decide) (by decide)⟩

/-- C3 (what the code does): on a non-empty well-formed list, `EraseAfter` called with the
cursor of the last element passes its assertion `!IsEmpty() && pos.node_` and then
dereferences the null successor link: the call is undefined behaviour, not an assertion
failure. -/
theorem C3_erase_after_last_not_caught {α : Type} (m : Mem α) (this : Nat)
    (cs : List (Nat × α)) (hrep : Rep m this cs) (hne : cs ≠ []) :
    EraseAfter this (cursor_at this cs cs.length) m = .undefined ∧
      EraseAfter this (cursor_at this cs cs.length) m ≠ .assert_fail := by
  have hund : EraseAfter this (cursor_at this cs cs.length) m = .undefined := by
    rw [cursor_at_eq this cs cs.length (le_refl _), List.take_length]
    rcases List.eq_nil_or_concat cs with rfl | ⟨pre, c, hcs⟩
    · exact absurd rfl hne
    · rw [List.concat_eq_append] at hcs
      subst hcs
      rw [pos_after_concat]
      obtain ⟨l, hl, hn, hs, hz⟩ := hrep
      rw [Seg_append] at hs
      have hc : m.heap[c.1]? = some (some ⟨c.2, .null⟩) := hs.2.1
      have hz1 : l.size_ ≠ 0 := by
        rw [hz]
        simp
      simp [EraseAfter, IsEmpty, M.bind, assert, load, load_size, hl, hc, hz1]
  exact ⟨hund, by rw [hund]; simp⟩

theorem C3_erase_after_last_not_caught_witness :
    Rep (⟨[some ⟨1, .null⟩], [some ⟨⟨0, .heap 0⟩, 1⟩], 8⟩ : Mem Nat) 0 [(0, 1)] ∧
      [(0, 1)] ≠ ([] : List (Nat × Nat)) ∧
      EraseAfter 0 (cursor_at 0 [((0 : Nat), (1 : Nat))] 1)
        (⟨[some ⟨1, .null⟩], [some ⟨⟨0, .heap 0⟩, 1⟩], 8⟩ : Mem Nat) = .undefined ∧
      EraseAfter 0 (cursor_at 0 [((0 : Nat), (1 : Nat))] 1)
        (⟨[some ⟨1, .null⟩], [some ⟨⟨0, .heap 0⟩, 1⟩], 8⟩ : Mem Nat) ≠ .assert_fail :=
  ⟨⟨_, rfl, rfl, ⟨rfl, trivial⟩, rfl⟩, by decide,
    C3_erase_after_last_not_caught _ 0 [(0, 1)] ⟨_, rfl, rfl, ⟨rfl, trivial⟩, rfl⟩ (by decide)⟩

theorem incr_pos_after {α : Type} {m : Mem α} {this : Nat} (pre suf : List (Nat × α))
    (hrep : Rep m this (pre ++ suf)) :
    BasicIterator.incr ⟨pos_after this pre⟩ m = .ok ⟨ptr_from suf .null⟩ m := by
  obtain ⟨n, e, hn⟩ := load_pos_after pre suf hrep
  simp only [BasicIterator.incr, bind_apply, bind_ok e, pure_apply, hn]

theorem deref_pos_after {α : Type} {m : Mem α} {this : Nat} (pre : List (Nat × α))
    (c : Nat × α) (suf : List (Nat × α)) (hrep : Rep m this (pre ++ c :: suf)) :
    BasicIterator.deref ⟨.heap c.1⟩ m = .ok c.2 m := by
  obtain ⟨l, hl, hn, hs, hz⟩ := hrep
  rw [Seg_append] at hs
  have hc : m.heap[c.1]? = some (some ⟨c.2, ptr_from suf .null⟩) := hs.2.1
  simp only [BasicIterator.deref, bind_apply, bind_ok (load_heap hc), pure_apply]

/-- C6: for every well-formed list with element sequence `xs`, every valid live position at
index `i` (`0` is the sentinel) and every value `v`, `InsertAfter(pos, v)` (given room for one
node) yields `xs` with `v` inserted right after `pos`, raises `GetSize()` by exactly 1, and
returns a cursor to the new node: it dereferences to `v`, it is what `pos` now advances to,
and advancing it gives the former successor of `pos`. -/
theorem C6_insert_after {α : Type} (m : Mem α) (this : Nat) (cs : List (Nat × α)) (i : Nat)
    (v : α) (hrep : Rep m this cs) (hok : m.ok) (hi : i ≤ cs.length)
    (hroom : m.heap.length < m.limit) :
    ∃ it m1 succ, InsertAfter this (cursor_at this cs i) v m = .ok it m1 ∧
      Observes m this (cs.map Prod.snd) ∧
      Observes m1 this ((cs.map Prod.snd).take i ++ v :: (cs.map Prod.snd).drop i) ∧
      GetSize this m = .ok cs.length m ∧ GetSize this m1 = .ok (cs.length + 1) m1 ∧
      it.deref m1 = .ok v m1 ∧
      (cursor_at this cs i).incr m = .ok succ m ∧ it.incr m1 = .ok succ m1 ∧
      (cursor_at this cs i).incr m1 = .ok it m1 ∧ Invariant m1 this := by
  have hsplit : cs.take i ++ cs.drop i = cs := List.take_append_drop i cs
  have hrep1 : Rep m this (cs.take i ++ cs.drop i) := by rw [hsplit]; exact hrep
  obtain ⟨m1, e1, r1, -, f1⟩ := (InsertAfter_spec (cs.take i) (cs.drop i) v hrep1 hok).1 hroom
  have o1 := Rep_observes r1
  have hlen : (cs.take i ++ (m.heap.length, v) :: cs.drop i).length = cs.length + 1 := by
    have := congrArg List.length hsplit
    simp only [List.length_append, List.length_cons] at this ⊢
    omega
  have hsz := o1.2
  rw [List.length_map, hlen] at hsz
  simp only [List.map_append, List.map_cons, ← List.map_take, ← List.map_drop] at o1
  have r1b : Rep m1 this ((cs.take i ++ [(m.heap.length, v)]) ++ cs.drop i) := by
    simpa using r1
  have hinc := incr_pos_after (cs.take i ++ [(m.heap.length, v)]) (cs.drop i) r1b
  rw [pos_after_concat] at hinc
  rw [cursor_at_eq this cs i hi]
  refine ⟨_, m1, ⟨ptr_from (cs.drop i) .null⟩, e1, Rep_observes hrep, ?_, ?_, hsz,
    deref_pos_after (cs.take i) (m.heap.length, v) (cs.drop i) r1,
    incr_pos_after (cs.take i) (cs.drop i) hrep1, hinc,
    incr_pos_after (cs.take i) ((m.heap.length, v) :: cs.drop i) r1, Rep_invariant r1⟩
  · simpa [List.map_take, List.map_drop] using o1
  · have := (Rep_observes hrep).2
    simpa using this

theorem C6_insert_after_witness :
    Rep (⟨[some ⟨10, .null⟩], [some ⟨⟨0, .heap 0⟩, 1⟩], 8⟩ : Mem Nat) 0 [(0, 10)] ∧
      ∃ it m1 succ,
        InsertAfter 0 (cursor_at 0 [((0 : Nat), (10 : Nat))] 1) 20
          (⟨[some ⟨10, .null⟩], [some ⟨⟨0, .heap 0⟩, 1⟩], 8⟩ : Mem Nat) = .ok it m1 ∧
        Observes (⟨[some ⟨10, .null⟩], [some ⟨⟨0, .heap 0⟩, 1⟩], 8⟩ : Mem Nat) 0 [10] ∧
        Observes m1 0 [10, 20] ∧
        GetSize 0 (⟨[some ⟨10, .null⟩], [some ⟨⟨0, .heap 0⟩, 1⟩], 8⟩ : Mem Nat)
          = .ok 1 ⟨[some ⟨10, .null⟩], [some ⟨⟨0, .heap 0⟩, 1⟩], 8⟩ ∧
        GetSize 0 m1 = .ok 2 m1 ∧ it.deref m1 = .ok 20 m1 ∧
        (cursor_at 0 [((0 : Nat), (10 : Nat))] 1).incr
          (⟨[some ⟨10, .null⟩], [some ⟨⟨0, .heap 0⟩, 1⟩], 8⟩ : Mem Nat)
          = .ok succ ⟨[some ⟨10, .null⟩], [some ⟨⟨0, .heap 0⟩, 1⟩], 8⟩ ∧
        it.incr m1 = .ok succ m1 ∧
        (cursor_at 0 [((0 : Nat), (10 : Nat))] 1).incr m1 = .ok it m1 ∧ Invariant m1 0 :=
  ⟨⟨_, rfl, rfl, ⟨rfl, trivial⟩, rfl⟩,
    C6_insert_after _ 0 [(0, 10)] 1 20 ⟨_, rfl, rfl, ⟨rfl, trivial⟩, rfl⟩ (by decide)
      (by decide) (by decide)⟩

/-- C7: for every well-formed non-empty list and every valid position at index `i` that has a
successor (`i < n`; `0` is the sentinel), `EraseAfter(pos)` removes exactly the element right
after `pos`, lowers `GetSize()` by exactly 1, and returns the cursor `pos` now advances to,
which is `end()` when the removed element was the last one. -/
theorem C7_erase_after {α : Type} (m : Mem α) (this : Nat) (cs : List (Nat × α)) (i : Nat)
    (hrep : Rep m this cs) (hok : m.ok) (hi : i < cs.length) :
    ∃ r m1, EraseAfter this (cursor_at this cs i) m = .ok r m1 ∧
      Observes m this (cs.map Prod.snd) ∧
      Observes m1 this ((cs.map Prod.snd).take i ++ (cs.map Prod.snd).drop (i + 1)) ∧
      GetSize this m = .ok cs.length m ∧ GetSize this m1 = .ok (cs.length - 1) m1 ∧
      (cursor_at this cs i).incr m1 = .ok r m1 ∧
      (i + 1 = cs.length → cend this m1 = .ok r m1) ∧ Invariant m1 this := by
  have hsplit : cs.take i ++ cs[i] :: cs.drop (i + 1) = cs := by
    rw [← List.drop_eq_getElem_cons hi]
    exact List.take_append_drop i cs
  have hrep1 : Rep m this (cs.take i ++ cs[i] :: cs.drop (i + 1)) := by rw [hsplit]; exact hrep
  obtain ⟨m1, e1, r1, -⟩ := EraseAfter_spec (cs.take i) cs[i] (cs.drop (i + 1)) hrep1 hok
  have o1 := Rep_observes r1
  have hlen : (cs.take i ++ cs.drop (i + 1)).length = cs.length - 1 := by
    simp only [List.length_append, List.length_take, List.length_drop]
    omega
  have hsz := o1.2
  rw [List.length_map, hlen] at hsz
  rw [cursor_at_eq this cs i (le_of_lt hi)]
  refine ⟨_, m1, e1, Rep_observes hrep, ?_, ?_, hsz,
    incr_pos_after (cs.take i) (cs.drop (i + 1)) r1, ?_, Rep_invariant r1⟩
  · simpa [List.map_take, List.map_drop] using o1
  · have := (Rep_observes hrep).2
    simpa using this
  · intro hlast
    rw [List.drop_of_length_le (by omega)]
    rfl

theorem C7_erase_after_witness :
    Rep (⟨[some ⟨2, .heap 1⟩, some ⟨3, .null⟩], [some ⟨⟨0, .heap 0⟩, 2⟩], 8⟩ : Mem Nat) 0
        [(0, 2), (1, 3)] ∧
      ∃ r m1,
        EraseAfter 0 (cursor_at 0 [((0 : Nat), (2 : Nat)), (1, 3)] 1)
          (⟨[some ⟨2, .heap 1⟩, some ⟨3, .null⟩], [some ⟨⟨0, .heap 0⟩, 2⟩], 8⟩ : Mem Nat)
          = .ok r m1 ∧
        Observes (⟨[some ⟨2, .heap 1⟩, some ⟨3, .null⟩], [some ⟨⟨0, .heap 0⟩, 2⟩], 8⟩ : Mem Nat)
          0 [2, 3] ∧
        Observes m1 0 [2] ∧
        GetSize 0 (⟨[some ⟨2, .heap 1⟩, some ⟨3, .null⟩], [some ⟨⟨0, .heap 0⟩, 2⟩], 8⟩ : Mem Nat)
          = .ok 2 ⟨[some ⟨2, .heap 1⟩, some ⟨3, .null⟩], [some ⟨⟨0, .heap 0⟩, 2⟩], 8⟩ ∧
        GetSize 0 m1 = .ok 1 m1 ∧
        (cursor_at 0 [((0 : Nat), (2 : Nat)), (1, 3)] 1).incr m1 = .ok r m1 ∧
        (1 + 1 = 2 → cend 0 m1 = .ok r m1) ∧ Invariant m1 0 :=
  ⟨⟨_, rfl, rfl, ⟨rfl, rfl, trivial⟩, rfl⟩,
    C7_erase_after _ 0 [(0, 2), (1, 3)] 1 ⟨_, rfl, rfl, ⟨rfl, rfl, trivial⟩, rfl⟩ (by decide)
      (by decide)⟩

/-- C9: for every well-formed list and value `v` (given room for one node), `PushFront(v)`
followed by `PopFront()` leaves the list observably unchanged: the same `GetSize()` and the
same element sequence as before the two calls. -/
theorem C9_push_front_pop_front {α : Type} (m : Mem α) (this : Nat) (cs : List (Nat × α))
    (v : α) (hrep : Rep m this cs) (hok : m.ok) (hroom : m.heap.length < m.limit) :
    ∃ m1 m2, PushFront this v m = .ok () m1 ∧ PopFront this m1 = .ok () m2 ∧
      Observes m this (cs.map Prod.snd) ∧ Observes m2 this (cs.map Prod.snd) ∧
      Invariant m2 this := by
  obtain ⟨m1, e1, r1, -, f1⟩ := (PushFront_spec v hrep hok).1 hroom
  obtain ⟨m2, e2, r2, -⟩ := PopFront_spec (m.heap.length, v) cs r1 (f1.ok hok)
  exact ⟨m1, m2, e1, e2, Rep_observes hrep, Rep_observes r2, Rep_invariant r2⟩

theorem C9_push_front_pop_front_witness :
    Rep (⟨[some ⟨2, .heap 1⟩, some ⟨3, .null⟩], [some ⟨⟨0, .heap 0⟩, 2⟩], 8⟩ : Mem Nat) 0
        [(0, 2), (1, 3)] ∧
      ∃ m1 m2,
        PushFront 0 1
          (⟨[some ⟨2, .heap 1⟩, some ⟨3, .null⟩], [some ⟨⟨0, .heap 0⟩, 2⟩], 8⟩ : Mem Nat)
          = .ok () m1 ∧
        PopFront 0 m1 = .ok () m2 ∧
        Observes (⟨[some ⟨2, .heap 1⟩, some ⟨3, .null⟩], [some ⟨⟨0, .heap 0⟩, 2⟩], 8⟩ : Mem Nat)
          0 [2, 3] ∧
        Observes m2 0 [2, 3] ∧ Invariant m2 0 :=
  ⟨⟨_, rfl, rfl, ⟨rfl, rfl, trivial⟩, rfl⟩,
    C9_push_front_pop_front _ 0 [(0, 2), (1, 3)] 1 ⟨_, rfl, rfl, ⟨rfl, rfl, trivial⟩, rfl⟩
      (by decide) (by decide)⟩

theorem SameElements_nil {α : Type} [BEq α] : SameElements ([] : List α) [] :=
  ⟨rfl, fun i a b h => by simp at h⟩

theorem SameElements_cons {α : Type} [BEq α] (a b : α) (xs ys : List α) :
    SameElements (a :: xs) (b :: ys) ↔ (a == b) = true ∧ SameElements xs ys := by
  constructor
  · intro h
    refine ⟨h.2 0 a b (by simp) (by simp), by simpa using h.1, ?_⟩
    intro i x y hx hy
    exact h.2 (i + 1) x y (by simpa using hx) (by simpa using hy)
  · intro h
    refine ⟨by simpa using h.2.1, ?_⟩
    intro i x y hx hy
    cases i with
    | zero =>
      simp only [List.getElem?_cons_zero, Option.some.injEq] at hx hy
      rw [← hx, ← hy]
      exact h.1
    | succ k => exact h.2.2 k x y (by simpa using hx) (by simpa using hy)

theorem std_equal_seg {α : Type} [BEq α] (m : Mem α) (ca : List (Nat × α)) :
    ∀ (cb : List (Nat × α)) (fuel : Nat), Seg m.heap ca .null → Seg m.heap cb .null →
      min ca.length cb.length < fuel →
      ∃ r, std_equal ⟨.null⟩ ⟨.null⟩ fuel ⟨ptr_from ca .null⟩ ⟨ptr_from cb .null⟩ m = .ok r m ∧
        (r = true ↔ SameElements (ca.map Prod.snd) (cb.map Prod.snd)) := by
  induction ca with
  | nil =>
    intro cb fuel _ _ hf
    obtain ⟨k, rfl⟩ : ∃ k, fuel = k + 1 := ⟨fuel - 1, by omega⟩
    cases cb with
    | nil =>
      refine ⟨true, by simp [std_equal, BasicIterator.ne, BasicIterator.eq], ?_⟩
      simp [SameElements_nil]
    | cons d rest =>
      refine ⟨false, by simp [std_equal, BasicIterator.ne, BasicIterator.eq], ?_⟩
      simp [SameElements]
  | cons c rest ih =>
    intro cb fuel ha hb hf
    obtain ⟨k, rfl⟩ : ∃ k, fuel = k + 1 := ⟨fuel - 1, by omega⟩
    cases cb with
    | nil =>
      refine ⟨false, by simp [std_equal, BasicIterator.ne, BasicIterator.eq], ?_⟩
      simp [SameElements]
    | cons d rest2 =>
      have hk : min rest.length rest2.length < k := by
        simp only [List.length_cons] at hf
        omega
      obtain ⟨r, e, hr⟩ := ih rest2 k ha.2 hb.2 hk
      simp only [List.map_cons, SameElements_cons]
      by_cases hcd : (c.2 == d.2) = true
      · refine ⟨r, ?_, by rw [hr]; simp [hcd]⟩
        simp [std_equal, BasicIterator.ne, BasicIterator.deref, BasicIterator.incr, M.bind,
          load_heap ha.1, load_heap hb.1, hcd, e]
      · refine ⟨false, ?_, by simp [hcd]⟩
        simp [std_equal, BasicIterator.ne, BasicIterator.deref, BasicIterator.incr, M.bind,
          load_heap ha.1, load_heap hb.1, hcd]

theorem op_eq_spec {α : Type} [BEq α] {m : Mem α} {a b : Nat} {ca cb : List (Nat × α)}
    (fuel : Nat) (ha : Rep m a ca) (hb : Rep m b cb) (hf : min ca.length cb.length < fuel) :
    ∃ r, op_eq fuel a b m = .ok r m ∧
      (r = true ↔ SameElements (ca.map Prod.snd) (cb.map Prod.snd)) := by
  obtain ⟨la, hla, hna, hsa, -⟩ := ha
  obtain ⟨lb, hlb, hnb, hsb, -⟩ := hb
  obtain ⟨r, e, hr⟩ := std_equal_seg m ca cb fuel hsa hsb hf
  refine ⟨r, ?_, hr⟩
  simp only [op_eq, cbegin, cend, bind_apply, M.bind, load_sentinel hla, load_sentinel hlb,
    pure_apply, hna, hnb]
  exact e

/-- C4: for all well-formed lists `A` and `B`, `operator==` returns `true` if and only if `A`
and `B` have the same number of elements and at every index their elements compare equal;
`operator!=` returns the negation. -/
theorem C4_equality_operators {α : Type} [BEq α] (m : Mem α) (a b : Nat)
    (ca cb : List (Nat × α)) (fuel : Nat) (ha : Rep m a ca) (hb : Rep m b cb)
    (hf : min ca.length cb.length < fuel) :
    ∃ r, op_eq fuel a b m = .ok r m ∧ op_ne fuel a b m = .ok (!r) m ∧
      Observes m a (ca.map Prod.snd) ∧ Observes m b (cb.map Prod.snd) ∧
      (r = true ↔ (ca.map Prod.snd).length = (cb.map Prod.snd).length ∧
        ∀ (i : Nat) (x y : α), (ca.map Prod.snd)[i]? = some x →
          (cb.map Prod.snd)[i]? = some y → (x == y) = true) := by
  obtain ⟨r, e, hr⟩ := op_eq_spec fuel ha hb hf
  refine ⟨r, e, ?_, Rep_observes ha, Rep_observes hb, hr⟩
  simp only [op_ne, bind_apply, bind_ok e, pure_apply]

theorem C4_equality_operators_witness :
    Rep (⟨[some ⟨1, .heap 1⟩, some ⟨2, .null⟩, some ⟨1, .null⟩],
        [some ⟨⟨0, .heap 0⟩, 2⟩, some ⟨⟨0, .heap 2⟩, 1⟩], 8⟩ : Mem Nat) 0 [(0, 1), (1, 2)] ∧
      Rep (⟨[some ⟨1, .heap 1⟩, some ⟨2, .null⟩, some ⟨1, .null⟩],
        [some ⟨⟨0, .heap 0⟩, 2⟩, some ⟨⟨0, .heap 2⟩, 1⟩], 8⟩ : Mem Nat) 1 [(2, 1)] ∧
      ∃ r,
        op_eq 3 0 1 (⟨[some ⟨1, .heap 1⟩, some ⟨2, .null⟩, some ⟨1, .null⟩],
          [some ⟨⟨0, .heap 0⟩, 2⟩, some ⟨⟨0, .heap 2⟩, 1⟩], 8⟩ : Mem Nat)
          = .ok r ⟨[some ⟨1, .heap 1⟩, some ⟨2, .null⟩, some ⟨1, .null⟩],
            [some ⟨⟨0, .heap 0⟩, 2⟩, some ⟨⟨0, .heap 2⟩, 1⟩], 8⟩ ∧
        op_ne 3 0 1 (⟨[some ⟨1, .heap 1⟩, some ⟨2, .null⟩, some ⟨1, .null⟩],
          [some ⟨⟨0, .heap 0⟩, 2⟩, some ⟨⟨0, .heap 2⟩, 1⟩], 8⟩ : Mem Nat)
          = .ok (!r) ⟨[some ⟨1, .heap 1⟩, some ⟨2, .null⟩, some ⟨1, .null⟩],
            [some ⟨⟨0, .heap 0⟩, 2⟩, some ⟨⟨0, .heap 2⟩, 1⟩], 8⟩ ∧
        Observes (⟨[some ⟨1, .heap 1⟩, some ⟨2, .null⟩, some ⟨1, .null⟩],
          [some ⟨⟨0, .heap 0⟩, 2⟩, some ⟨⟨0, .heap 2⟩, 1⟩], 8⟩ : Mem Nat) 0 [1, 2] ∧
        Observes (⟨[some ⟨1, .heap 1⟩, some ⟨2, .null⟩, some ⟨1, .null⟩],
          [some ⟨⟨0, .heap 0⟩, 2⟩, some ⟨⟨0, .heap 2⟩, 1⟩], 8⟩ : Mem Nat) 1 [1] ∧
        (r = true ↔ [1, 2].length = [1].length ∧
          ∀ (i : Nat) (x y : Nat), [1, 2][i]? = some x → [1][i]? = some y → (x == y) = true) :=
  ⟨⟨_, rfl, rfl, ⟨rfl, rfl, trivial⟩, rfl⟩, ⟨_, rfl, rfl, ⟨rfl, trivial⟩, rfl⟩,
    C4_equality_operators _ 0 1 [(0, 1), (1, 2)] [(2, 1)] 3
      ⟨_, rfl, rfl, ⟨rfl, rfl, trivial⟩, rfl⟩ ⟨_, rfl, rfl, ⟨rfl, trivial⟩, rfl⟩ (by decide)⟩

theorem LexLess_nil_nil {α : Type} [LT α] : ¬ LexLess ([] : List α) [] := by
  rintro (⟨i, a, b, h, -⟩ | ⟨h, -⟩)
  · simp at h
  · simp at h

theorem LexLess_nil_cons {α : Type} [LT α] (b : α) (ys : List α) : LexLess [] (b :: ys) :=
  Or.inr ⟨by simp, by simp⟩

theorem LexLess_cons_nil {α : Type} [LT α] (a : α) (xs : List α) : ¬ LexLess (a :: xs) [] := by
  rintro (⟨i, x, y, -, h, -⟩ | ⟨h, -⟩)
  · simp at h
  · simp at h

theorem LexLess_cons_of_lt {α : Type} [LT α] {a b : α} (xs ys : List α) (h : a < b) :
    LexLess (a :: xs) (b :: ys) :=
  Or.inl ⟨0, a, b, by simp, by simp, h, fun j hj => by omega⟩

theorem LexLess_cons_of_gt {α : Type} [Preorder α] {a b : α} (xs ys : List α) (h : b < a) :
    ¬ LexLess (a :: xs) (b :: ys) := by
  rintro (⟨i, x, y, hx, hy, hlt, hpre⟩ | ⟨-, htake⟩)
  · cases i with
    | zero =>
      simp only [List.getElem?_cons_zero, Option.some.injEq] at hx hy
      rw [← hx, ← hy] at hlt
      exact lt_asymm h hlt
    | succ k =>
      have h0 := hpre 0 (by omega)
      simp only [List.getElem?_cons_zero, Option.some.injEq] at h0
      rw [h0] at h
      exact lt_irrefl _ h
  · simp only [List.length_cons, List.take_succ_cons, List.cons.injEq] at htake
    rw [htake.1] at h
    exact lt_irrefl _ h

theorem LexLess_cons_same {α : Type} [Preorder α] (a : α) (xs ys : List α) :
    LexLess (a :: xs) (a :: ys) ↔ LexLess xs ys := by
  constructor
  · rintro (⟨i, x, y, hx, hy, hlt, hpre⟩ | ⟨hlen, htake⟩)
    · cases i with
      | zero =>
        simp only [List.getElem?_cons_zero, Option.some.injEq] at hx hy
        rw [← hx, ← hy] at hlt
        exact absurd hlt (lt_irrefl _)
      | succ k =>
        refine Or.inl ⟨k, x, y, by simpa using hx, by simpa using hy, hlt, fun j hj => ?_⟩
        have := hpre (j + 1) (by omega)
        simpa using this
    · refine Or.inr ⟨by simpa using hlen, ?_⟩
      simp only [List.length_cons, List.take_succ_cons, List.cons.injEq, true_and] at htake
      exact htake
  · rintro (⟨i, x, y, hx, hy, hlt, hpre⟩ | ⟨hlen, htake⟩)
    · refine Or.inl ⟨i + 1, x, y, by simpa using hx, by simpa using hy, hlt, fun j hj => ?_⟩
      cases j with
      | zero => simp
      | succ k =>
        have := hpre k (by omega)
        simpa using this
    · exact Or.inr ⟨by simpa using hlen, by simp [htake]⟩

theorem std_lexicographical_compare_seg {α : Type} [LinearOrder α] (m : Mem α)
    (ca : List (Nat × α)) :
    ∀ (cb : List (Nat × α)) (fuel : Nat), Seg m.heap ca .null → Seg m.heap cb .null →
      min ca.length cb.length < fuel →
      ∃ r, std_lexicographical_compare (fun x y => decide (x < y)) ⟨.null⟩ ⟨.null⟩ fuel
          ⟨ptr_from ca .null⟩ ⟨ptr_from cb .null⟩ m = .ok r m ∧
        (r = true ↔ LexLess (ca.map Prod.snd) (cb.map Prod.snd)) := by
  induction ca with
  | nil =>
    intro cb fuel _ _ hf
    obtain ⟨k, rfl⟩ : ∃ k, fuel = k + 1 := ⟨fuel - 1, by omega⟩
    cases cb with
    | nil =>
      refine ⟨false, by simp [std_lexicographical_compare, BasicIterator.ne, BasicIterator.eq], ?_⟩
      simp [LexLess_nil_nil]
    | cons d rest =>
      refine ⟨true, by simp [std_lexicographical_compare, BasicIterator.ne, BasicIterator.eq], ?_⟩
      simp [LexLess_nil_cons]
  | cons c rest ih =>
    intro cb fuel ha hb hf
    obtain ⟨k, rfl⟩ : ∃ k, fuel = k + 1 := ⟨fuel - 1, by omega⟩
    cases cb with
    | nil =>
      refine ⟨false, by simp [std_lexicographical_compare, BasicIterator.ne, BasicIterator.eq], ?_⟩
      simp [LexLess_cons_nil]
    | cons d rest2 =>
      have hk : min rest.length rest2.length < k := by
        simp only [List.length_cons] at hf
        omega
      obtain ⟨r, e, hr⟩ := ih rest2 k ha.2 hb.2 hk
      simp only [List.map_cons]
      rcases lt_trichotomy c.2 d.2 with hlt | heq | hgt
      · refine ⟨true, ?_, by simp [LexLess_cons_of_lt _ _ hlt]⟩
        simp [std_lexicographical_compare, BasicIterator.ne, BasicIterator.deref, M.bind,
          load_heap ha.1, load_heap hb.1, hlt]
      · refine ⟨r, ?_, by rw [hr, heq, LexLess_cons_same]⟩
        simp [std_lexicographical_compare, BasicIterator.ne, BasicIterator.deref,
          BasicIterator.incr, M.bind, load_heap ha.1, load_heap hb.1, heq, e]
      · refine ⟨false, ?_, by simp [LexLess_cons_of_gt _ _ hgt]⟩
        simp [std_lexicographical_compare, BasicIterator.ne, BasicIterator.deref, M.bind,
          load_heap ha.1, load_heap hb.1, hgt, not_lt_of_gt hgt]

theorem op_lt_spec {α : Type} [LinearOrder α] {m : Mem α} {a b : Nat}
    {ca cb : List (Nat × α)} (fuel : Nat) (ha : Rep m a ca) (hb : Rep m b cb)
    (hf : min ca.length cb.length < fuel) :
    ∃ r, op_lt (fun x y => decide (x < y)) fuel a b m = .ok r m ∧
      (r = true ↔ LexLess (ca.map Prod.snd) (cb.map Prod.snd)) := by
  obtain ⟨la, hla, hna, hsa, -⟩ := ha
  obtain ⟨lb, hlb, hnb, hsb, -⟩ := hb
  obtain ⟨r, e, hr⟩ := std_lexicographical_compare_seg m ca cb fuel hsa hsb hf
  refine ⟨r, ?_, hr⟩
  simp only [op_lt, cbegin, cend, bind_apply, M.bind, load_sentinel hla, load_sentinel hlb,
    pure_apply, hna, hnb]
  exact e

theorem LexLess_irrefl {α : Type} [Preorder α] (xs : List α) : ¬ LexLess xs xs := by
  rintro (⟨i, x, y, hx, hy, hlt, -⟩ | ⟨h, -⟩)
  · rw [hx] at hy
    simp only [Option.some.injEq] at hy
    rw [hy] at hlt
    exact lt_irrefl _ hlt
  · exact lt_irrefl _ h

/-- C5: for all well-formed lists `A` and `B` over a linearly ordered element type, `A < B`
returns `true` if and only if either there is a first index at which the elements differ and
the element of `A` there is less than that of `B`, or `A` is a proper initial segment of `B`;
in particular equal sequences are not less than each other. -/
theorem C5_less_than_operator {α : Type} [LinearOrder α] (m : Mem α) (a b : Nat)
    (ca cb : List (Nat × α)) (fuel : Nat) (ha : Rep m a ca) (hb : Rep m b cb)
    (hf : min ca.length cb.length < fuel) :
    ∃ r, op_lt (fun x y => decide (x < y)) fuel a b m = .ok r m ∧
      Observes m a (ca.map Prod.snd) ∧ Observes m b (cb.map Prod.snd) ∧
      (r = true ↔
        (∃ (i : Nat) (x y : α), (ca.map Prod.snd)[i]? = some x ∧
            (cb.map Prod.snd)[i]? = some y ∧ x < y ∧
            ∀ j : Nat, j < i → (ca.map Prod.snd)[j]? = (cb.map Prod.snd)[j]?) ∨
          ((ca.map Prod.snd).length < (cb.map Prod.snd).length ∧
            (cb.map Prod.snd).take (ca.map Prod.snd).length = ca.map Prod.snd)) ∧
      (ca.map Prod.snd = cb.map Prod.snd → r = false) := by
  obtain ⟨r, e, hr⟩ := op_lt_spec fuel ha hb hf
  refine ⟨r, e, Rep_observes ha, Rep_observes hb, hr, fun heq => ?_⟩
  cases r with
  | false => rfl
  | true =>
    have h := hr.1 rfl
    rw [heq] at h
    exact absurd h (LexLess_irrefl _)

theorem C5_less_than_operator_witness :
    Rep (⟨[some ⟨1, .heap 1⟩, some ⟨2, .null⟩, some ⟨1, .null⟩],
        [some ⟨⟨0, .heap 0⟩, 2⟩, some ⟨⟨0, .heap 2⟩, 1⟩], 8⟩ : Mem Nat) 1 [(2, 1)] ∧
      Rep (⟨[some ⟨1, .heap 1⟩, some ⟨2, .null⟩, some ⟨1, .null⟩],
        [some ⟨⟨0, .heap 0⟩, 2⟩, some ⟨⟨0, .heap 2⟩, 1⟩], 8⟩ : Mem Nat) 0 [(0, 1), (1, 2)] ∧
      ∃ r,
        op_lt (fun x y => decide (x < y)) 2 1 0
          (⟨[some ⟨1, .heap 1⟩, some ⟨2, .null⟩, some ⟨1, .null⟩],
            [some ⟨⟨0, .heap 0⟩, 2⟩, some ⟨⟨0, .heap 2⟩, 1⟩], 8⟩ : Mem Nat)
          = .ok r ⟨[some ⟨1, .heap 1⟩, some ⟨2, .null⟩, some ⟨1, .null⟩],
            [some ⟨⟨0, .heap 0⟩, 2⟩, some ⟨⟨0, .heap 2⟩, 1⟩], 8⟩ ∧
        Observes (⟨[some ⟨1, .heap 1⟩, some ⟨2, .null⟩, some ⟨1, .null⟩],
          [some ⟨⟨0, .heap 0⟩, 2⟩, some ⟨⟨0, .heap 2⟩, 1⟩], 8⟩ : Mem Nat) 1 [1] ∧
        Observes (⟨[some ⟨1, .heap 1⟩, some ⟨2, .null⟩, some ⟨1, .null⟩],
          [some ⟨⟨0, .heap 0⟩, 2⟩, some ⟨⟨0, .heap 2⟩, 1⟩], 8⟩ : Mem Nat) 0 [1, 2] ∧
        (r = true ↔
          (∃ (i : Nat) (x y : Nat), [1][i]? = some x ∧ [1, 2][i]? = some y ∧ x < y ∧
              ∀ j : Nat, j < i → [1][j]? = [1, 2][j]?) ∨
            ([1].length < [1, 2].length ∧ [1, 2].take [1].length = [1])) ∧
        ([1] = [1, 2] → r = false) :=
  ⟨⟨_, rfl, rfl, ⟨rfl, trivial⟩, rfl⟩, ⟨_, rfl, rfl, ⟨rfl, rfl, trivial⟩, rfl⟩,
    C5_less_than_operator _ 1 0 [(2, 1)] [(0, 1), (1, 2)] 2
      ⟨_, rfl, rfl, ⟨rfl, trivial⟩, rfl⟩ ⟨_, rfl, rfl, ⟨rfl, rfl, trivial⟩, rfl⟩ (by decide)⟩

theorem const_iterator_source {α : Type} (h0 : Nat) :
    IsSource (const_iterator_it : InputIt α BasicIterator) ⟨.null⟩ h0
      (fun m it vs => ∃ cs : List (Nat × α), it.node_ = ptr_from cs .null ∧
        Seg m.heap cs .null ∧ cs.map Prod.snd = vs ∧ ∀ c ∈ cs, c.1 < h0) where
  done := by
    rintro m it ⟨cs, hp, -, hv, -⟩
    have : cs = [] := by simpa using hv
    subst this
    simp [const_iterator_it, BasicIterator.ne, hp]
  more := by
    rintro m it v vs ⟨cs, hp, hs, hv, hlt⟩
    cases cs with
    | nil => simp at hv
    | cons c rest =>
      simp only [List.map_cons, List.cons.injEq] at hv
      have hc : m.heap[c.1]? = some (some ⟨c.2, ptr_from rest .null⟩) := hs.1
      have hload : load it.node_ m = .ok ⟨c.2, ptr_from rest .null⟩ m := by
        rw [hp]
        exact load_heap hc
      refine ⟨?_, ?_, ⟨ptr_from rest .null⟩, ?_, rest, rfl, hs.2, hv.2,
        fun d hd => hlt d (List.mem_cons_of_mem _ hd)⟩
      · simp [const_iterator_it, BasicIterator.ne, hp]
      · simp only [const_iterator_it, BasicIterator.deref, bind_apply, bind_ok hload,
          pure_apply, hv.1]
      · simp only [const_iterator_it, BasicIterator.incr, bind_apply, bind_ok hload,
          pure_apply]
  stable := by
    rintro m m1 it vs os as ⟨cs, hp, hs, hv, hlt⟩ hf has
    refine ⟨cs, hp, Seg_frame hs (fun c hc => ?_), hv, hlt⟩
    refine hf.2.2.2.2.1 c.1 (Seg_lt hs c hc) (fun hmem => ?_)
    have h1 := has c.1 hmem
    have h2 := hlt c hc
    omega

theorem ctor_copy_spec {α : Type} [Inhabited α] {m : Mem α} {other : Nat}
    {cs : List (Nat × α)} (fuel : Nat) (hrep : Rep m other cs) (hok : m.ok)
    (hf : cs.length < fuel) :
    (m.heap.length + cs.length ≤ m.limit →
      ∃ m1 new, ctor_copy fuel other m = .ok m.objs.length m1 ∧
        Rep m1 m.objs.length new ∧ new.map Prod.snd = cs.map Prod.snd ∧
        (∀ c ∈ new, m.heap.length ≤ c.1) ∧ Frame m m1 [] []) ∧
    (m.limit < m.heap.length + cs.length →
      ∃ m1, ctor_copy fuel other m = .bad_alloc m1 ∧ Frame m m1 [] []) := by
  obtain ⟨ma, ea, ra, ha, la, fa⟩ := ctor_default_spec m
  have rother : Rep ma other cs := Rep_frame hrep fa (by simp) (by simp)
  have hsrc := const_iterator_source (α := α) ma.heap.length
  have hsrc0 : ∃ cs1 : List (Nat × α), (⟨ptr_from cs .null⟩ : BasicIterator).node_ =
      ptr_from cs1 .null ∧ Seg ma.heap cs1 .null ∧ cs1.map Prod.snd = cs.map Prod.snd ∧
      ∀ c ∈ cs1, c.1 < ma.heap.length := by
    obtain ⟨l, -, -, hs, -⟩ := rother
    exact ⟨cs, rfl, hs, rfl, Seg_lt hs⟩
  obtain ⟨hgood, hbad⟩ := FillList_spec const_iterator_it ⟨ptr_from cs .null⟩ ⟨.null⟩ _
    (cs.map Prod.snd) ma m.objs.length [] fuel hsrc hsrc0 ra (fa.ok hok) (by simpa using hf)
    (by simp; omega)
  have hlim := fa.1
  rw [ha] at hgood hbad
  simp only [List.length_map] at hgood hbad
  have hbody : ∀ r : Outcome α Unit,
      FillList const_iterator_it fuel m.objs.length ⟨ptr_from cs .null⟩ ⟨.null⟩ ma = r →
      (do
        let s ← load_size m.objs.length
        let h ← load (.sentinel m.objs.length)
        assert (s == 0 && h.next_node == .null)
        let first ← cbegin other
        let last ← cend other
        FillList const_iterator_it fuel m.objs.length first last : M α Unit) ma = r := by
    intro r hr
    obtain ⟨l, hl, hn, -, hz⟩ := ra
    obtain ⟨lo, hlo, hno, -, -⟩ := rother
    simp only [ptr_from_nil] at hn
    simp only [List.length_nil] at hz
    simp [M.bind, load_size, load, assert, cbegin, cend, hl, hlo, hn, hz, hno, hr]
  constructor
  · intro hroom
    obtain ⟨m1, new, e1, r1, v1, n1, -, f1⟩ := hgood (by omega)
    refine ⟨m1, new, construct_ok ea (hbody _ e1), r1, v1, n1,
      (fa.trans f1).weaken ?_ (by simp)⟩
    intro o ho holt
    simp only [List.nil_append, List.mem_singleton] at ho
    omega
  · intro hfull
    obtain ⟨m1, e1, f1⟩ := hbad (by omega)
    have hobj : ∃ l, m1.objs[m.objs.length]? = some (some l) := by
      obtain ⟨l, hl, -⟩ := ra
      exact ⟨l, by rw [f1.2.2.2.1 _ (lookup_lt hl) (by simp), hl]⟩
    obtain ⟨l, hl⟩ := hobj
    obtain ⟨m2, e2, -, -, f2⟩ := release_obj_spec hl
    refine ⟨m2, construct_bad ea (hbody _ e1) e2, ((fa.trans f1).trans f2).weaken ?_ (by simp)⟩
    intro o ho holt
    simp only [List.nil_append, List.mem_singleton] at ho
    omega

theorem assign_spec {α : Type} [Inhabited α] {m : Mem α} {this rhs : Nat}
    {ca cb : List (Nat × α)} (fuel : Nat) (ha : Rep m this ca) (hb : Rep m rhs cb)
    (hne : this ≠ rhs) (hdisj : ∀ c ∈ ca, ∀ d ∈ cb, c.1 ≠ d.1) (hok : m.ok)
    (hfa : ca.length < fuel) (hfb : cb.length < fuel) :
    (m.heap.length + cb.length ≤ m.limit →
      ∃ m1 new, assign fuel this rhs m = .ok () m1 ∧ Rep m1 this new ∧
        new.map Prod.snd = cb.map Prod.snd ∧ (∀ c ∈ new, m.heap.length ≤ c.1) ∧
        Rep m1 rhs cb ∧ (∀ c ∈ ca, m1.heap[c.1]? = some none) ∧
        Frame m m1 [this] (ca.map Prod.fst)) ∧
    (m.limit < m.heap.length + cb.length →
      ∃ m1, assign fuel this rhs m = .bad_alloc m1 ∧ Frame m m1 [] []) := by
  obtain ⟨hgood, hbad⟩ := ctor_copy_spec fuel hb hok hfb
  have hthis : this < m.objs.length := by
    obtain ⟨l, hl, -⟩ := ha
    exact lookup_lt hl
  have hrhs : rhs < m.objs.length := by
    obtain ⟨l, hl, -⟩ := hb
    exact lookup_lt hl
  have hca : ∀ c ∈ ca, c.1 < m.heap.length := by
    obtain ⟨l, -, -, hseg, -⟩ := ha
    exact Seg_lt hseg
  have hunf : (assign fuel this rhs : M α Unit) =
      with_local fuel (ctor_copy fuel rhs) (fun rhs_copy => swap this rhs_copy) := by
    simp [assign, hne]
  rw [hunf]
  constructor
  · intro hroom
    obtain ⟨m1, new, e1, r1, v1, n1, f1⟩ := hgood hroom
    have ra1 : Rep m1 this ca := Rep_frame ha f1 (by simp) (by simp)
    have rb1 : Rep m1 rhs cb := Rep_frame hb f1 (by simp) (by simp)
    obtain ⟨m2, e2, ra2, rc2, h2, f2⟩ := swap_spec ra1 r1
    have rb2 : Rep m2 rhs cb := Rep_frame rb1 f2 (by
      simp only [List.mem_cons, List.mem_singleton, List.mem_nil_iff, or_false, not_or]
      exact ⟨fun h => hne h.symm, by omega⟩) (by simp)
    obtain ⟨m3, e3, o3, c3, l3, f3⟩ := dtor_spec fuel rc2 hfa
    have ra3 : Rep m3 this new := Rep_frame ra2 f3 (by simp; omega) (by
      intro c hc hmem
      obtain ⟨d, hd, hdc⟩ := List.mem_map.1 hmem
      have h1 := n1 c hc
      have h2 := hca d hd
      omega)
    have rb3 : Rep m3 rhs cb := Rep_frame rb2 f3 (by simp; omega) (by
      intro c hc hmem
      obtain ⟨d, hd, hdc⟩ := List.mem_map.1 hmem
      exact hdisj d hd c hc hdc)
    refine ⟨m3, new, with_local_ok e1 e2 e3, ra3, v1, n1, rb3, c3, ?_⟩
    refine ((f1.trans f2).trans f3).weaken ?_ ?_
    · intro o ho holt
      simp only [List.nil_append, List.mem_append, List.mem_cons, List.mem_singleton,
        List.mem_nil_iff, or_false] at ho
      simp only [List.mem_singleton]
      omega
    · intro a ha _
      simpa using ha
  · intro hfull
    obtain ⟨m1, e1, f1⟩ := hbad hfull
    exact ⟨m1, with_local_ctor_bad e1, f1⟩

theorem assign_self {α : Type} [Inhabited α] (fuel : Nat) (this : Nat) (m : Mem α) :
    assign fuel this this m = .ok () m := by
  simp [assign]

theorem SameElements_refl {α : Type} [BEq α] [LawfulBEq α] (xs : List α) :
    SameElements xs xs := by
  refine ⟨rfl, fun i a b ha hb => ?_⟩
  rw [ha] at hb
  simp only [Option.some.injEq] at hb
  simp [hb]

theorem SameElements_self_iff {α : Type} [BEq α] (xs : List α) :
    SameElements xs xs ↔ ∀ x ∈ xs, (x == x) = true := by
  constructor
  · intro h x hx
    obtain ⟨i, hi⟩ := List.mem_iff_getElem?.1 hx
    exact h.2 i x x hi hi
  · intro h
    refine ⟨rfl, fun i a b ha hb => ?_⟩
    rw [ha] at hb
    simp only [Option.some.injEq] at hb
    subst hb
    exact h a (List.mem_iff_getElem?.2 ⟨i, ha⟩)

theorem ends_with_ok {α β : Type} {r : Outcome α β} {P : β → Mem α → Prop}
    {Q : Mem α → Prop} {v : β} {m1 : Mem α} (h : r = .ok v m1) (hp : P v m1) :
    r.ends_with P Q := by
  subst h
  exact hp

theorem ends_with_bad {α β : Type} {r : Outcome α β} {P : β → Mem α → Prop}
    {Q : Mem α → Prop} {m1 : Mem α} (h : r = .bad_alloc m1) (hq : Q m1) :
    r.ends_with P Q := by
  subst h
  exact hq

/-- C12: for all well-formed lists `A` and `B`, `swap` exchanges their contents (afterwards `A`
has the former element sequence and size of `B`, and `B` those of `A`), a second `swap`
restores both, and the free function `swap(A, B)` has the same effect as the member
`A.swap(B)` on every memory. -/
theorem C12_swap_exchanges_and_restores {α : Type} (m : Mem α) (a b : Nat)
    (ca cb : List (Nat × α)) (ha : Rep m a ca) (hb : Rep m b cb) :
    ∃ m1 m2, swap a b m = .ok () m1 ∧ Observes m a (ca.map Prod.snd) ∧
      Observes m b (cb.map Prod.snd) ∧ Observes m1 a (cb.map Prod.snd) ∧
      Observes m1 b (ca.map Prod.snd) ∧ swap a b m1 = .ok () m2 ∧
      Observes m2 a (ca.map Prod.snd) ∧ Observes m2 b (cb.map Prod.snd) ∧
      free_swap a b m = .ok () m1 ∧ free_swap a b m1 = .ok () m2 ∧
      ∀ m0 : Mem α, free_swap a b m0 = swap a b m0 := by
  obtain ⟨m1, e1, ra1, rb1, -, -⟩ := swap_spec ha hb
  obtain ⟨m2, e2, ra2, rb2, -, -⟩ := swap_spec ra1 rb1
  exact ⟨m1, m2, e1, Rep_observes ha, Rep_observes hb, Rep_observes ra1, Rep_observes rb1, e2,
    Rep_observes ra2, Rep_observes rb2, e1, e2, fun _ => rfl⟩

theorem C12_swap_exchanges_and_restores_witness :
    Rep two_lists 0 [(0, 7)] ∧ Rep two_lists 1 [(1, 1), (2, 2)] ∧
      ∃ m1 m2, swap 0 1 two_lists = .ok () m1 ∧ Observes two_lists 0 [7] ∧
        Observes two_lists 1 [1, 2] ∧ Observes m1 0 [1, 2] ∧ Observes m1 1 [7] ∧
        swap 0 1 m1 = .ok () m2 ∧ Observes m2 0 [7] ∧ Observes m2 1 [1, 2] ∧
        free_swap 0 1 two_lists = .ok () m1 ∧ free_swap 0 1 m1 = .ok () m2 ∧
        ∀ m0 : Mem Nat, free_swap 0 1 m0 = swap 0 1 m0 :=
  ⟨⟨_, rfl, rfl, ⟨rfl, trivial⟩, rfl⟩, ⟨_, rfl, rfl, ⟨rfl, rfl, trivial⟩, rfl⟩,
    C12_swap_exchanges_and_restores two_lists 0 1 [(0, 7)] [(1, 1), (2, 2)]
      ⟨_, rfl, rfl, ⟨rfl, trivial⟩, rfl⟩ ⟨_, rfl, rfl, ⟨rfl, rfl, trivial⟩, rfl⟩⟩

/-- C13: on a well-formed list, the precondition assertion of `PopFront` fails if and only if
the list is empty; on a non-empty list with element sequence `x :: xs`, `PopFront()` returns,
leaves the element sequence `xs`, lowers `GetSize()` by exactly 1, and makes `begin()` the
cursor of the former second element, which is `end()` when there was none. -/
theorem C13_pop_front {α : Type} (m : Mem α) (this : Nat) (cs : List (Nat × α))
    (hrep : Rep m this cs) (hok : m.ok) :
    (PopFront this m = .assert_fail ↔ cs = []) ∧
      (cs ≠ [] → ∃ m1, PopFront this m = .ok () m1 ∧
        Observes m this (cs.map Prod.snd) ∧ Observes m1 this ((cs.map Prod.snd).tail) ∧
        GetSize this m = .ok cs.length m ∧ GetSize this m1 = .ok (cs.length - 1) m1 ∧
        cbegin this m1 = .ok (cursor_at this cs 2) m1 ∧
        (cs.length = 1 → cbegin this m1 = cend this m1) ∧ Invariant m1 this) := by
  constructor
  · cases cs with
    | nil =>
      obtain ⟨l, hl, -, -, hz⟩ := hrep
      simp only [List.length_nil] at hz
      simp [PopFront, IsEmpty, M.bind, load_size, hl, hz, assert]
    | cons c rest =>
      obtain ⟨m1, e, -⟩ := PopFront_spec c rest hrep hok
      simp [e]
  · intro hne
    obtain ⟨c, rest, rfl⟩ := List.exists_cons_of_ne_nil hne
    obtain ⟨m1, e, r, -⟩ := PopFront_spec c rest hrep hok
    have hb : cbegin this m1 = .ok ⟨ptr_from rest .null⟩ m1 := by
      obtain ⟨l, hl, hn, -⟩ := r
      simp only [cbegin, bind_apply, bind_ok (load_sentinel hl), pure_apply, hn]
    refine ⟨m1, e, Rep_observes hrep, by simpa using Rep_observes r, ?_, ?_, ?_, ?_,
      Rep_invariant r⟩
    · exact (Rep_observes hrep).2.trans (by simp)
    · exact (Rep_observes r).2.trans (by simp)
    · rw [hb]
      simp [cursor_at]
    · intro hlen
      have : rest = [] := by
        cases rest with
        | nil => rfl
        | cons d r2 => simp at hlen
      rw [hb, this]
      rfl

theorem C13_pop_front_witness :
    Rep two_lists 1 [(1, 1), (2, 2)] ∧ two_lists.ok ∧
      (PopFront 1 two_lists = .assert_fail ↔ [((1 : Nat), (1 : Nat)), (2, 2)] = []) ∧
      ([((1 : Nat), (1 : Nat)), (2, 2)] ≠ [] → ∃ m1, PopFront 1 two_lists = .ok () m1 ∧
        Observes two_lists 1 [1, 2] ∧ Observes m1 1 [2] ∧
        GetSize 1 two_lists = .ok 2 two_lists ∧ GetSize 1 m1 = .ok 1 m1 ∧
        cbegin 1 m1 = .ok (cursor_at 1 [((1 : Nat), (1 : Nat)), (2, 2)] 2) m1 ∧
        ([((1 : Nat), (1 : Nat)), (2, 2)].length = 1 → cbegin 1 m1 = cend 1 m1) ∧
        Invariant m1 1) :=
  ⟨⟨_, rfl, rfl, ⟨rfl, rfl, trivial⟩, rfl⟩, by decide,
    C13_pop_front two_lists 1 [(1, 1), (2, 2)] ⟨_, rfl, rfl, ⟨rfl, rfl, trivial⟩, rfl⟩
      (by decide)⟩

theorem push_front_all_spec {α : Type} (this : Nat) (vs : List α) :
    ∀ (m : Mem α) (cs : List (Nat × α)), Rep m this cs → m.ok →
      m.heap.length + vs.length ≤ m.limit →
      ∃ m1 new, push_front_all this vs m = .ok () m1 ∧ Rep m1 this (new ++ cs) ∧
        new.map Prod.snd = vs.reverse := by
  induction vs with
  | nil =>
    intro m cs hrep _ _
    exact ⟨m, [], rfl, by simpa using hrep, rfl⟩
  | cons v rest ih =>
    intro m cs hrep hok hroom
    simp only [List.length_cons] at hroom
    obtain ⟨m1, e1, r1, l1, f1⟩ := (PushFront_spec v hrep hok).1 (by omega)
    have hlim := f1.1
    obtain ⟨m2, new, e2, r2, v2⟩ := ih m1 ((m.heap.length, v) :: cs) r1 (f1.ok hok) (by omega)
    refine ⟨m2, new ++ [(m.heap.length, v)], ?_, by simpa using r2, by simp [v2]⟩
    simp only [push_front_all, bind_apply, bind_ok e1]
    exact e2

/-- C14: for every well-formed list with element sequence `xs` and every value `v` (given room
for the new nodes), `PushFront(v)` yields the element sequence `v :: xs` and raises `GetSize()`
by exactly 1; consequently pushing `v_n, ..., v_1` in that order puts `v_1, ..., v_n` in front
of `xs`, so that starting from an empty list the traversal order is `v_1, ..., v_n`. -/
theorem C14_push_front {α : Type} (m : Mem α) (this : Nat) (cs : List (Nat × α)) (v : α)
    (vs : List α) (hrep : Rep m this cs) (hok : m.ok) (hroom1 : m.heap.length < m.limit)
    (hroom : m.heap.length + vs.length ≤ m.limit) :
    (∃ m1, PushFront this v m = .ok () m1 ∧ Observes m this (cs.map Prod.snd) ∧
        Observes m1 this (v :: cs.map Prod.snd) ∧ GetSize this m = .ok cs.length m ∧
        GetSize this m1 = .ok (cs.length + 1) m1) ∧
      (∃ m2, push_front_all this vs.reverse m = .ok () m2 ∧
        Observes m2 this (vs ++ cs.map Prod.snd) ∧ (cs = [] → Observes m2 this vs)) := by
  constructor
  · obtain ⟨m1, e1, r1, -⟩ := (PushFront_spec v hrep hok).1 hroom1
    refine ⟨m1, e1, Rep_observes hrep, by simpa using Rep_observes r1, ?_, ?_⟩
    · exact (Rep_observes hrep).2.trans (by simp)
    · exact (Rep_observes r1).2.trans (by simp)
  · obtain ⟨m2, new, e2, r2, v2⟩ := push_front_all_spec this vs.reverse m cs hrep hok
      (by simpa using hroom)
    have ho := Rep_observes r2
    simp only [List.map_append, v2, List.reverse_reverse] at ho
    refine ⟨m2, e2, ho, fun hnil => ?_⟩
    subst hnil
    simpa using ho

theorem C14_push_front_witness :
    Rep (⟨[], [some ⟨⟨0, .null⟩, 0⟩], 8⟩ : Mem Nat) 0 [] ∧
      (∃ m1, PushFront 0 9 (⟨[], [some ⟨⟨0, .null⟩, 0⟩], 8⟩ : Mem Nat) = .ok () m1 ∧
        Observes (⟨[], [some ⟨⟨0, .null⟩, 0⟩], 8⟩ : Mem Nat) 0 [] ∧
        Observes m1 0 [9] ∧
        GetSize 0 (⟨[], [some ⟨⟨0, .null⟩, 0⟩], 8⟩ : Mem Nat)
          = .ok 0 ⟨[], [some ⟨⟨0, .null⟩, 0⟩], 8⟩ ∧
        GetSize 0 m1 = .ok 1 m1) ∧
      (∃ m2, push_front_all 0 [3, 2, 1] (⟨[], [some ⟨⟨0, .null⟩, 0⟩], 8⟩ : Mem Nat)
          = .ok () m2 ∧
        Observes m2 0 [1, 2, 3] ∧ (([] : List (Nat × Nat)) = [] → Observes m2 0 [1, 2, 3])) :=
  ⟨⟨_, rfl, rfl, trivial, rfl⟩,
    C14_push_front _ 0 [] 9 [1, 2, 3] ⟨_, rfl, rfl, trivial, rfl⟩ (by decide) (by decide)
      (by decide)⟩

theorem InsertAfter_sentinel_eq_PushFront {α : Type} {m : Mem α} {this : Nat}
    {cs : List (Nat × α)} (v : α) (hrep : Rep m this cs) (hroom : m.heap.length < m.limit)
    {m1 : Mem α} (hp : PushFront this v m = .ok () m1) :
    InsertAfter this ⟨.sentinel this⟩ v m = .ok ⟨.heap m.heap.length⟩ m1 := by
  obtain ⟨l, hl, -⟩ := hrep
  have hlt := lookup_lt hl
  simp [PushFront, M.bind, load, hl, new_Node, hroom, store_next, incr_size, load_size,
    store_size, hlt] at hp
  simp [InsertAfter, M.bind, assert, load, hl, new_Node, hroom, store_next, incr_size,
    load_size, store_size, hlt]
  exact hp

theorem EraseAfter_sentinel_eq_PopFront {α : Type} {m : Mem α} {this : Nat} (c : Nat × α)
    (cs : List (Nat × α)) (hrep : Rep m this (c :: cs)) {m1 : Mem α}
    (hp : PopFront this m = .ok () m1) :
    EraseAfter this ⟨.sentinel this⟩ m = .ok ⟨ptr_from cs .null⟩ m1 := by
  obtain ⟨l, hl, hn, hs, hz⟩ := hrep
  have hlt := lookup_lt hl
  have hc : m.heap[c.1]? = some (some ⟨c.2, ptr_from cs .null⟩) := hs.1
  simp only [ptr_from_cons] at hn
  simp only [List.length_cons] at hz
  simp [PopFront, IsEmpty, M.bind, assert, load, load_size, hl, hn, hc, hz,
    delete_Node, store_next, decr_size, store_size, hlt] at hp
  simp [EraseAfter, IsEmpty, M.bind, assert, load, load_size, hl, hn, hc, hz,
    delete_Node, store_next, decr_size, store_size, hlt]
  exact hp

/-- C16: front operations are the sentinel case of the positional operations. For every
well-formed list and value `v` (given room for one node), `InsertAfter(before_begin(), v)`
and `PushFront(v)` end in the same memory, hence the same element sequence `v :: xs` and the
same size; for every well-formed non-empty list, `EraseAfter(before_begin())` and `PopFront()`
end in the same memory, hence the same element sequence and size. -/
theorem C16_front_operations_are_sentinel_case {α : Type} (m : Mem α) (this : Nat)
    (cs : List (Nat × α)) (v : α) (hrep : Rep m this cs) (hok : m.ok)
    (hroom : m.heap.length < m.limit) :
    (∃ bb it m1, before_begin this m = .ok bb m ∧ InsertAfter this bb v m = .ok it m1 ∧
        PushFront this v m = .ok () m1 ∧ Observes m1 this (v :: cs.map Prod.snd)) ∧
      (cs ≠ [] → ∃ bb r m1, before_begin this m = .ok bb m ∧
        EraseAfter this bb m = .ok r m1 ∧ PopFront this m = .ok () m1 ∧
        Observes m1 this ((cs.map Prod.snd).tail)) := by
  constructor
  · obtain ⟨m1, e1, r1, -⟩ := (PushFront_spec v hrep hok).1 hroom
    exact ⟨⟨.sentinel this⟩, _, m1, rfl, InsertAfter_sentinel_eq_PushFront v hrep hroom e1, e1,
      by simpa using Rep_observes r1⟩
  · intro hne
    obtain ⟨c, rest, rfl⟩ := List.exists_cons_of_ne_nil hne
    obtain ⟨m1, e1, r1, -⟩ := PopFront_spec c rest hrep hok
    exact ⟨⟨.sentinel this⟩, _, m1, rfl, EraseAfter_sentinel_eq_PopFront c rest hrep e1, e1,
      by simpa using Rep_observes r1⟩

theorem C16_front_operations_are_sentinel_case_witness :
    Rep two_lists 1 [(1, 1), (2, 2)] ∧ two_lists.ok ∧
      (∃ bb it m1, before_begin 1 two_lists = .ok bb two_lists ∧
        InsertAfter 1 bb 5 two_lists = .ok it m1 ∧ PushFront 1 5 two_lists = .ok () m1 ∧
        Observes m1 1 [5, 1, 2]) ∧
      ([((1 : Nat), (1 : Nat)), (2, 2)] ≠ [] → ∃ bb r m1,
        before_begin 1 two_lists = .ok bb two_lists ∧ EraseAfter 1 bb two_lists = .ok r m1 ∧
        PopFront 1 two_lists = .ok () m1 ∧ Observes m1 1 [2]) :=
  ⟨⟨_, rfl, rfl, ⟨rfl, rfl, trivial⟩, rfl⟩, by decide,
    C16_front_operations_are_sentinel_case two_lists 1 [(1, 1), (2, 2)] 5
      ⟨_, rfl, rfl, ⟨rfl, rfl, trivial⟩, rfl⟩ (by decide) (by decide)⟩

theorem std_lexicographical_compare_returns {α : Type} (lt : α → α → Bool) (m : Mem α)
    (ca : List (Nat × α)) :
    ∀ (cb : List (Nat × α)) (fuel : Nat), Seg m.heap ca .null → Seg m.heap cb .null →
      min ca.length cb.length < fuel →
      ∃ r, std_lexicographical_compare lt ⟨.null⟩ ⟨.null⟩ fuel
          ⟨ptr_from ca .null⟩ ⟨ptr_from cb .null⟩ m = .ok r m := by
  induction ca with
  | nil =>
    intro cb fuel _ _ hf
    obtain ⟨k, rfl⟩ : ∃ k, fuel = k + 1 := ⟨fuel - 1, by omega⟩
    exact ⟨_, rfl⟩
  | cons c rest ih =>
    intro cb fuel ha hb hf
    obtain ⟨k, rfl⟩ : ∃ k, fuel = k + 1 := ⟨fuel - 1, by omega⟩
    cases cb with
    | nil => exact ⟨_, rfl⟩
    | cons d rest2 =>
      have hk : min rest.length rest2.length < k := by
        simp only [List.length_cons] at hf
        omega
      obtain ⟨r, e⟩ := ih rest2 k ha.2 hb.2 hk
      by_cases h1 : lt c.2 d.2 = true
      · exact ⟨true, by
          simp [std_lexicographical_compare, BasicIterator.ne, BasicIterator.deref, M.bind,
            load_heap ha.1, load_heap hb.1, h1]⟩
      · by_cases h2 : lt d.2 c.2 = true
        · exact ⟨false, by
            simp [std_lexicographical_compare, BasicIterator.ne, BasicIterator.deref, M.bind,
              load_heap ha.1, load_heap hb.1, h1, h2]⟩
        · exact ⟨r, by
            simp [std_lexicographical_compare, BasicIterator.ne, BasicIterator.deref,
              BasicIterator.incr, M.bind, load_heap ha.1, load_heap hb.1, h1, h2, e]⟩

theorem op_lt_returns {α : Type} (lt : α → α → Bool) {m : Mem α} {a b : Nat}
    {ca cb : List (Nat × α)} (fuel : Nat) (ha : Rep m a ca) (hb : Rep m b cb)
    (hf : min ca.length cb.length < fuel) : ∃ r, op_lt lt fuel a b m = .ok r m := by
  obtain ⟨la, hla, hna, hsa, -⟩ := ha
  obtain ⟨lb, hlb, hnb, hsb, -⟩ := hb
  obtain ⟨r, e⟩ := std_lexicographical_compare_returns lt m ca cb fuel hsa hsb hf
  refine ⟨r, ?_⟩
  simp only [op_lt, cbegin, cend, bind_apply, M.bind, load_sentinel hla, load_sentinel hlb,
    pure_apply, hna, hnb]
  exact e

theorem op_le_eq {α : Type} [BEq α] (lt : α → α → Bool) {m : Mem α} {a b : Nat} {fuel : Nat}
    {r1 r2 : Bool} (h1 : op_lt lt fuel a b m = .ok r1 m) (h2 : op_eq fuel a b m = .ok r2 m) :
    op_le lt fuel a b m = .ok (r1 || r2) m := by
  simp only [op_le, bind_apply, bind_ok h1]
  cases r1 with
  | true => rfl
  | false => simpa using h2

/-- C17: for all well-formed lists `A` and `B`, whatever the element comparisons are, the
value of `A <= B` is that of `A < B || A == B`, the value of `A > B` is that of `B < A`, and
the value of `A >= B` is that of `B <= A`. -/
theorem C17_derived_comparisons {α : Type} [BEq α] (lt : α → α → Bool) (m : Mem α)
    (a b : Nat) (ca cb : List (Nat × α)) (fuel : Nat) (ha : Rep m a ca) (hb : Rep m b cb)
    (hf : min ca.length cb.length < fuel) :
    ∃ lt_ab eq_ab lt_ba le_ba, op_lt lt fuel a b m = .ok lt_ab m ∧
      op_eq fuel a b m = .ok eq_ab m ∧ op_le lt fuel a b m = .ok (lt_ab || eq_ab) m ∧
      op_lt lt fuel b a m = .ok lt_ba m ∧ op_gt lt fuel a b m = .ok lt_ba m ∧
      op_le lt fuel b a m = .ok le_ba m ∧ op_ge lt fuel a b m = .ok le_ba m := by
  have hf1 : min cb.length ca.length < fuel := by rw [min_comm]; exact hf
  obtain ⟨r1, e1⟩ := op_lt_returns lt fuel ha hb hf
  obtain ⟨r2, e2, -⟩ := op_eq_spec fuel ha hb hf
  obtain ⟨r3, e3⟩ := op_lt_returns lt fuel hb ha hf1
  obtain ⟨r4, e4, -⟩ := op_eq_spec fuel hb ha hf1
  exact ⟨r1, r2, r3, r3 || r4, e1, e2, op_le_eq lt e1 e2, e3, e3, op_le_eq lt e3 e4,
    op_le_eq lt e3 e4⟩

theorem C17_derived_comparisons_witness :
    Rep two_lists 0 [(0, 7)] ∧ Rep two_lists 1 [(1, 1), (2, 2)] ∧
      ∃ lt_ab eq_ab lt_ba le_ba,
        op_lt (fun x y => decide (x < y)) 3 0 1 two_lists = .ok lt_ab two_lists ∧
        op_eq 3 0 1 two_lists = .ok eq_ab two_lists ∧
        op_le (fun x y => decide (x < y)) 3 0 1 two_lists = .ok (lt_ab || eq_ab) two_lists ∧
        op_lt (fun x y => decide (x < y)) 3 1 0 two_lists = .ok lt_ba two_lists ∧
        op_gt (fun x y => decide (x < y)) 3 0 1 two_lists = .ok lt_ba two_lists ∧
        op_le (fun x y => decide (x < y)) 3 1 0 two_lists = .ok le_ba two_lists ∧
        op_ge (fun x y => decide (x < y)) 3 0 1 two_lists = .ok le_ba two_lists :=
  ⟨⟨_, rfl, rfl, ⟨rfl, trivial⟩, rfl⟩, ⟨_, rfl, rfl, ⟨rfl, rfl, trivial⟩, rfl⟩,
    C17_derived_comparisons (fun x y => decide (x < y)) two_lists 0 1 [(0, 7)] [(1, 1), (2, 2)] 3
      ⟨_, rfl, rfl, ⟨rfl, trivial⟩, rfl⟩ ⟨_, rfl, rfl, ⟨rfl, rfl, trivial⟩, rfl⟩ (by decide)⟩

theorem index_lt_of_value {α : Type} {cs : List (Nat × α)} {k : Nat} {x : α}
    (hx : (cs.map Prod.snd)[k]? = some x) : k < cs.length := by
  by_contra hc
  rw [List.getElem?_eq_none (by simpa using hc)] at hx
  cases hx

theorem incr_cursor_at {α : Type} {m : Mem α} {this : Nat} {cs : List (Nat × α)}
    (hrep : Rep m this cs) (i : Nat) (hi : i ≤ cs.length) :
    (cursor_at this cs i).incr m = .ok (cursor_at this cs (i + 1)) m := by
  have hsplit : cs.take i ++ cs.drop i = cs := List.take_append_drop i cs
  have hrep1 : Rep m this (cs.take i ++ cs.drop i) := by rw [hsplit]; exact hrep
  rw [cursor_at_eq this cs i hi]
  exact incr_pos_after (cs.take i) (cs.drop i) hrep1

theorem advance_cursor_at {α : Type} {m : Mem α} {this : Nat} {cs : List (Nat × α)}
    (hrep : Rep m this cs) (k : Nat) :
    ∀ i, i + k ≤ cs.length + 1 →
      advance k (cursor_at this cs i) m = .ok (cursor_at this cs (i + k)) m := by
  induction k with
  | zero =>
    intro i _
    rfl
  | succ k ih =>
    intro i hi
    simp only [advance, bind_apply, bind_ok (incr_cursor_at hrep i (by omega))]
    rw [ih (i + 1) (by omega)]
    congr 2
    omega

theorem deref_cursor_at {α : Type} {m : Mem α} {this : Nat} {cs : List (Nat × α)}
    (hrep : Rep m this cs) (k : Nat) (x : α) (hx : (cs.map Prod.snd)[k]? = some x) :
    (cursor_at this cs (k + 1)).deref m = .ok x m := by
  have hk : k < cs.length := index_lt_of_value hx
  have hsplit : cs.take k ++ cs[k] :: cs.drop (k + 1) = cs := by
    rw [← List.drop_eq_getElem_cons hk]
    exact List.take_append_drop k cs
  have hrep1 : Rep m this (cs.take k ++ cs[k] :: cs.drop (k + 1)) := by
    rw [hsplit]; exact hrep
  have hxe : cs[k].2 = x := by
    rw [List.getElem?_map, List.getElem?_eq_getElem hk] at hx
    simpa using hx
  have hd := deref_pos_after (cs.take k) cs[k] (cs.drop (k + 1)) hrep1
  rw [hxe] at hd
  simp only [cursor_at, List.drop_eq_getElem_cons hk, ptr_from_cons]
  exact hd

theorem cbegin_cursor_at {α : Type} {m : Mem α} {this : Nat} {cs : List (Nat × α)}
    (hrep : Rep m this cs) : cbegin this m = .ok (cursor_at this cs 1) m := by
  obtain ⟨l, hl, hn, -⟩ := hrep
  simp only [cbegin, bind_apply, bind_ok (load_sentinel hl), pure_apply, hn, cursor_at,
    List.drop_zero]

theorem cend_cursor_at {α : Type} (m : Mem α) (this : Nat) (cs : List (Nat × α)) :
    cend this m = .ok (cursor_at this cs (cs.length + 1)) m := by
  simp [cend, cursor_at]

/-- C19: cursor traversal follows the chain. For every well-formed list with elements
`x_0 .. x_(n-1)`: advancing `before_begin()` once gives `begin()`; advancing `begin()` `k`
times for `k < n` gives a cursor that dereferences to `x_k`; advancing it `n` times gives
`end()`; and at every live cursor (the sentinel or an element) postfix increment returns the
cursor's previous position and leaves the cursor where prefix increment leaves it, one node
further. -/
theorem C19_cursor_traversal {α : Type} (m : Mem α) (this : Nat) (cs : List (Nat × α))
    (hrep : Rep m this cs) :
    ∃ bb first last, before_begin this m = .ok bb m ∧ cbegin this m = .ok first m ∧
      cend this m = .ok last m ∧ Observes m this (cs.map Prod.snd) ∧
      bb.incr m = .ok first m ∧
      (∀ (k : Nat) (x : α), (cs.map Prod.snd)[k]? = some x →
        ∃ it, advance k first m = .ok it m ∧ it.deref m = .ok x m) ∧
      advance cs.length first m = .ok last m ∧
      (∀ i, i ≤ cs.length → ∃ it nxt, advance i bb m = .ok it m ∧ it.incr m = .ok nxt m ∧
        it.post_incr m = .ok (it, nxt) m ∧ advance (i + 1) bb m = .ok nxt m) := by
  refine ⟨cursor_at this cs 0, cursor_at this cs 1, cursor_at this cs (cs.length + 1), rfl,
    cbegin_cursor_at hrep, cend_cursor_at m this cs, Rep_observes hrep,
    incr_cursor_at hrep 0 (Nat.zero_le _), ?_, ?_, ?_⟩
  · intro k x hx
    have hk : k < cs.length := index_lt_of_value hx
    refine ⟨cursor_at this cs (1 + k), advance_cursor_at hrep k 1 (by omega), ?_⟩
    rw [Nat.add_comm]
    exact deref_cursor_at hrep k x hx
  · have := advance_cursor_at hrep cs.length 1 (by omega)
    rw [Nat.add_comm] at this
    exact this
  · intro i hi
    have h1 := advance_cursor_at hrep i 0 (by omega)
    have h2 := advance_cursor_at hrep (i + 1) 0 (by omega)
    simp only [Nat.zero_add] at h1 h2
    have h3 := incr_cursor_at hrep i hi
    refine ⟨_, _, h1, h3, ?_, h2⟩
    simp only [BasicIterator.post_incr, bind_apply, bind_ok h3, pure_apply]

theorem C19_cursor_traversal_witness :
    Rep two_lists 1 [(1, 1), (2, 2)] ∧
      ∃ bb first last, before_begin 1 two_lists = .ok bb two_lists ∧
        cbegin 1 two_lists = .ok first two_lists ∧ cend 1 two_lists = .ok last two_lists ∧
        Observes two_lists 1 [1, 2] ∧ bb.incr two_lists = .ok first two_lists ∧
        (∀ (k : Nat) (x : Nat), [1, 2][k]? = some x →
          ∃ it, advance k first two_lists = .ok it two_lists ∧
            it.deref two_lists = .ok x two_lists) ∧
        advance 2 first two_lists = .ok last two_lists ∧
        (∀ i, i ≤ 2 → ∃ it nxt, advance i bb two_lists = .ok it two_lists ∧
          it.incr two_lists = .ok nxt two_lists ∧
          it.post_incr two_lists = .ok (it, nxt) two_lists ∧
          advance (i + 1) bb two_lists = .ok nxt two_lists) :=
  ⟨⟨_, rfl, rfl, ⟨rfl, rfl, trivial⟩, rfl⟩,
    C19_cursor_traversal two_lists 1 [(1, 1), (2, 2)] ⟨_, rfl, rfl, ⟨rfl, rfl, trivial⟩, rfl⟩⟩

/-- C15: for every well-formed (finite, null-terminated) list, `Clear()` terminates (any fuel
above the length suffices) and leaves the list empty: `GetSize()` is 0, `IsEmpty()` is true,
the sentinel's link is null so `begin() == end()`. The nodes of the chain had pairwise distinct
addresses, each was live before and is released after the call, and no other cell changed;
as `delete` of an already released node is undefined behaviour, returning normally also means
no node was released twice. -/
theorem C15_clear {α : Type} (m : Mem α) (this : Nat) (cs : List (Nat × α)) (fuel : Nat)
    (hrep : Rep m this cs) (hf : cs.length < fuel) :
    ∃ m1 h first, Clear fuel this m = .ok () m1 ∧ GetSize this m1 = .ok 0 m1 ∧
      IsEmpty this m1 = .ok true m1 ∧ Observes m1 this [] ∧
      load (.sentinel this) m1 = .ok h m1 ∧ h.next_node = .null ∧
      cbegin this m1 = .ok first m1 ∧ cend this m1 = .ok first m1 ∧
      (cs.map Prod.fst).Nodup ∧
      (∀ c ∈ cs, (∃ n, m.heap[c.1]? = some (some n)) ∧ m1.heap[c.1]? = some none) ∧
      (∀ a, a ∉ cs.map Prod.fst → m1.heap[a]? = m.heap[a]?) ∧ Invariant m1 this := by
  obtain ⟨m1, e, r, hfree, hlen, hfr⟩ := Clear_spec fuel hrep hf
  have hseg : Seg m.heap cs .null := by
    obtain ⟨l, -, -, hs, -⟩ := hrep
    exact hs
  obtain ⟨l, hl, hn, -, hz⟩ := r
  simp only [ptr_from_nil] at hn
  simp only [List.length_nil] at hz
  have hr1 : Rep m1 this [] := ⟨l, hl, hn, trivial, hz⟩
  refine ⟨m1, l.head_, ⟨.null⟩, e, ?_, ?_, Rep_observes hr1, load_sentinel hl, hn, ?_, rfl,
    Seg_nodup hseg, ?_, ?_, Rep_invariant hr1⟩
  · simpa using (Rep_observes hr1).2
  · simpa using Rep_isEmpty hr1
  · simp only [cbegin, bind_apply, bind_ok (load_sentinel hl), pure_apply, hn]
  · intro c hc
    refine ⟨?_, hfree c hc⟩
    obtain ⟨pre, suf, rfl⟩ := List.append_of_mem hc
    rw [Seg_append] at hseg
    exact ⟨_, hseg.2.1⟩
  · intro a ha
    by_cases halt : a < m.heap.length
    · exact hfr.2.2.2.2.1 a halt ha
    · rw [List.getElem?_eq_none (by omega), List.getElem?_eq_none (by omega)]

theorem C15_clear_witness :
    Rep two_lists 1 [(1, 1), (2, 2)] ∧ [((1 : Nat), (1 : Nat)), (2, 2)].length < 3 ∧
      ∃ m1 h first, Clear 3 1 two_lists = .ok () m1 ∧ GetSize 1 m1 = .ok 0 m1 ∧
        IsEmpty 1 m1 = .ok true m1 ∧ Observes m1 1 [] ∧
        load (.sentinel 1) m1 = .ok h m1 ∧ h.next_node = .null ∧
        cbegin 1 m1 = .ok first m1 ∧ cend 1 m1 = .ok first m1 ∧
        ([((1 : Nat), (1 : Nat)), (2, 2)].map Prod.fst).Nodup ∧
        (∀ c ∈ [((1 : Nat), (1 : Nat)), (2, 2)],
          (∃ n, two_lists.heap[c.1]? = some (some n)) ∧ m1.heap[c.1]? = some none) ∧
        (∀ a, a ∉ [((1 : Nat), (1 : Nat)), (2, 2)].map Prod.fst →
          m1.heap[a]? = two_lists.heap[a]?) ∧
        Invariant m1 1 :=
  ⟨⟨_, rfl, rfl, ⟨rfl, rfl, trivial⟩, rfl⟩, by decide,
    C15_clear two_lists 1 [(1, 1), (2, 2)] 3 ⟨_, rfl, rfl, ⟨rfl, rfl, trivial⟩, rfl⟩
      (by decide)⟩

theorem LexLess_cons_iff {α : Type} [LinearOrder α] (a b : α) (xs ys : List α) :
    LexLess (a :: xs) (b :: ys) ↔ a < b ∨ (a = b ∧ LexLess xs ys) := by
  rcases lt_trichotomy a b with h | h | h
  · simp [LexLess_cons_of_lt xs ys h, h]
  · subst h
    simp [LexLess_cons_same]
  · have h1 : ¬ a < b := not_lt_of_gt h
    have h2 : a ≠ b := ne_of_gt h
    simp [LexLess_cons_of_gt xs ys h, h1, h2]

theorem LexLess_trans {α : Type} [LinearOrder α] (xs : List α) :
    ∀ ys zs : List α, LexLess xs ys → LexLess ys zs → LexLess xs zs := by
  induction xs with
  | nil =>
    intro ys zs h1 h2
    cases zs with
    | nil =>
      cases ys with
      | nil => exact h1
      | cons b ys => exact absurd h2 (LexLess_cons_nil b ys)
    | cons c zs => exact LexLess_nil_cons c zs
  | cons a xs ih =>
    intro ys zs h1 h2
    cases ys with
    | nil => exact absurd h1 (LexLess_cons_nil a xs)
    | cons b ys =>
      cases zs with
      | nil => exact absurd h2 (LexLess_cons_nil b ys)
      | cons c zs =>
        rw [LexLess_cons_iff] at h1 h2 ⊢
        rcases h1 with h1 | ⟨rfl, h1⟩
        · rcases h2 with h2 | ⟨rfl, _⟩
          · exact Or.inl (lt_trans h1 h2)
          · exact Or.inl h1
        · rcases h2 with h2 | ⟨rfl, h2⟩
          · exact Or.inl h2
          · exact Or.inr ⟨rfl, ih ys zs h1 h2⟩

theorem LexLess_trichotomy {α : Type} [LinearOrder α] (xs : List α) :
    ∀ ys : List α, LexLess xs ys ∨ xs = ys ∨ LexLess ys xs := by
  induction xs with
  | nil =>
    intro ys
    cases ys with
    | nil => exact Or.inr (Or.inl rfl)
    | cons b ys => exact Or.inl (LexLess_nil_cons b ys)
  | cons a xs ih =>
    intro ys
    cases ys with
    | nil => exact Or.inr (Or.inr (LexLess_nil_cons a xs))
    | cons b ys =>
      rw [LexLess_cons_iff, LexLess_cons_iff]
      rcases lt_trichotomy a b with h | rfl | h
      · exact Or.inl (Or.inl h)
      · rcases ih ys with h | rfl | h
        · exact Or.inl (Or.inr ⟨rfl, h⟩)
        · exact Or.inr (Or.inl rfl)
        · exact Or.inr (Or.inr (Or.inr ⟨rfl, h⟩))
      · exact Or.inr (Or.inr (Or.inl h))

theorem LexLess_asymm {α : Type} [LinearOrder α] {xs ys : List α} (h : LexLess xs ys) :
    ¬ LexLess ys xs :=
  fun h1 => LexLess_irrefl xs (LexLess_trans xs ys xs h h1)

theorem SameElements_iff_eq {α : Type} [BEq α] [LawfulBEq α] (xs : List α) :
    ∀ ys : List α, SameElements xs ys ↔ xs = ys := by
  induction xs with
  | nil =>
    intro ys
    cases ys with
    | nil => simp [SameElements_nil]
    | cons b ys => simp [SameElements]
  | cons a xs ih =>
    intro ys
    cases ys with
    | nil => simp [SameElements]
    | cons b ys => simp [SameElements_cons, ih ys]

/-- C20: for well-formed lists over a linearly ordered element type whose `==` is equality,
`operator<` is a strict total order consistent with `operator==`: `A < A` is false, `A < B`
and `B < C` give `A < C`, exactly one of `A < B`, `A == B`, `B < A` is true (and `A == B` is
true exactly for equal element sequences); hence `A <= B` is the negation of `B < A` and
`A >= B` is the negation of `A < B`. -/
theorem C20_strict_total_order {α : Type} [LinearOrder α] [BEq α] [LawfulBEq α] (m : Mem α)
    (a b c : Nat) (ca cb cc : List (Nat × α)) (fuel : Nat) (ha : Rep m a ca)
    (hb : Rep m b cb) (hc : Rep m c cc) (hfa : ca.length < fuel) (hfb : cb.length < fuel) :
    ∃ lt_aa lt_ab lt_ba lt_bc lt_ac eq_ab le_ab ge_ab : Bool,
      op_lt (fun x y => decide (x < y)) fuel a a m = .ok lt_aa m ∧
      op_lt (fun x y => decide (x < y)) fuel a b m = .ok lt_ab m ∧
      op_lt (fun x y => decide (x < y)) fuel b a m = .ok lt_ba m ∧
      op_lt (fun x y => decide (x < y)) fuel b c m = .ok lt_bc m ∧
      op_lt (fun x y => decide (x < y)) fuel a c m = .ok lt_ac m ∧
      op_eq fuel a b m = .ok eq_ab m ∧
      op_le (fun x y => decide (x < y)) fuel a b m = .ok le_ab m ∧
      op_ge (fun x y => decide (x < y)) fuel a b m = .ok ge_ab m ∧
      lt_aa = false ∧ (lt_ab = true → lt_bc = true → lt_ac = true) ∧
      (lt_ab = true ∨ eq_ab = true ∨ lt_ba = true) ∧
      ¬ (lt_ab = true ∧ eq_ab = true) ∧ ¬ (lt_ab = true ∧ lt_ba = true) ∧
      ¬ (eq_ab = true ∧ lt_ba = true) ∧
      (eq_ab = true ↔ ca.map Prod.snd = cb.map Prod.snd) ∧
      le_ab = (!lt_ba) ∧ ge_ab = (!lt_ab) := by
  have hmin : ∀ x y : Nat, x < fuel → min x y < fuel := fun x y h => by omega
  have hmin1 : ∀ x y : Nat, y < fuel → min x y < fuel := fun x y h => by omega
  obtain ⟨r_aa, e_aa, h_aa⟩ := op_lt_spec fuel ha ha (hmin _ _ hfa)
  obtain ⟨r_ab, e_ab, h_ab⟩ := op_lt_spec fuel ha hb (hmin _ _ hfa)
  obtain ⟨r_ba, e_ba, h_ba⟩ := op_lt_spec fuel hb ha (hmin _ _ hfb)
  obtain ⟨r_bc, e_bc, h_bc⟩ := op_lt_spec fuel hb hc (hmin _ _ hfb)
  obtain ⟨r_ac, e_ac, h_ac⟩ := op_lt_spec fuel ha hc (hmin _ _ hfa)
  obtain ⟨q_ab, f_ab, g_ab⟩ := op_eq_spec fuel ha hb (hmin _ _ hfa)
  obtain ⟨q_ba, f_ba, g_ba⟩ := op_eq_spec fuel hb ha (hmin _ _ hfb)
  rw [SameElements_iff_eq] at g_ab g_ba
  have t1 : r_aa = false := by
    cases r_aa with
    | false => rfl
    | true => exact absurd (h_aa.1 rfl) (LexLess_irrefl _)
  have t2 : r_ab = true → r_bc = true → r_ac = true :=
    fun h1 h2 => h_ac.2 (LexLess_trans _ _ _ (h_ab.1 h1) (h_bc.1 h2))
  have t3 : r_ab = true ∨ q_ab = true ∨ r_ba = true := by
    rcases LexLess_trichotomy (ca.map Prod.snd) (cb.map Prod.snd) with h | h | h
    · exact Or.inl (h_ab.2 h)
    · exact Or.inr (Or.inl (g_ab.2 h))
    · exact Or.inr (Or.inr (h_ba.2 h))
  have t4 : ¬ (r_ab = true ∧ q_ab = true) := by
    rintro ⟨h1, h2⟩
    have h3 := h_ab.1 h1
    rw [g_ab.1 h2] at h3
    exact LexLess_irrefl _ h3
  have t5 : ¬ (r_ab = true ∧ r_ba = true) :=
    fun ⟨h1, h2⟩ => LexLess_asymm (h_ab.1 h1) (h_ba.1 h2)
  have t6 : ¬ (q_ab = true ∧ r_ba = true) := by
    rintro ⟨h1, h2⟩
    have h3 := h_ba.1 h2
    rw [g_ab.1 h1] at h3
    exact LexLess_irrefl _ h3
  have t7 : q_ba = q_ab := by
    have : q_ba = true ↔ q_ab = true := by
      rw [g_ab, g_ba]
      exact eq_comm
    cases q_ba <;> cases q_ab <;> simp_all
  refine ⟨r_aa, r_ab, r_ba, r_bc, r_ac, q_ab, r_ab || q_ab, r_ba || q_ba, e_aa, e_ab, e_ba,
    e_bc, e_ac, f_ab, op_le_eq _ e_ab f_ab, op_le_eq _ e_ba f_ba, t1, t2, t3, t4, t5, t6, g_ab,
    ?_, ?_⟩
  · cases r_ab <;> cases q_ab <;> cases r_ba <;> simp_all
  · rw [t7]
    cases r_ab <;> cases q_ab <;> cases r_ba <;> simp_all

theorem C20_strict_total_order_witness :
    Rep two_lists 0 [(0, 7)] ∧ Rep two_lists 1 [(1, 1), (2, 2)] ∧
      ∃ lt_aa lt_ab lt_ba lt_bc lt_ac eq_ab le_ab ge_ab : Bool,
        op_lt (fun x y => decide (x < y)) 3 1 1 two_lists = .ok lt_aa two_lists ∧
        op_lt (fun x y => decide (x < y)) 3 1 0 two_lists = .ok lt_ab two_lists ∧
        op_lt (fun x y => decide (x < y)) 3 0 1 two_lists = .ok lt_ba two_lists ∧
        op_lt (fun x y => decide (x < y)) 3 0 0 two_lists = .ok lt_bc two_lists ∧
        op_lt (fun x y => decide (x < y)) 3 1 0 two_lists = .ok lt_ac two_lists ∧
        op_eq 3 1 0 two_lists = .ok eq_ab two_lists ∧
        op_le (fun x y => decide (x < y)) 3 1 0 two_lists = .ok le_ab two_lists ∧
        op_ge (fun x y => decide (x < y)) 3 1 0 two_lists = .ok ge_ab two_lists ∧
        lt_aa = false ∧ (lt_ab = true → lt_bc = true → lt_ac = true) ∧
        (lt_ab = true ∨ eq_ab = true ∨ lt_ba = true) ∧
        ¬ (lt_ab = true ∧ eq_ab = true) ∧ ¬ (lt_ab = true ∧ lt_ba = true) ∧
        ¬ (eq_ab = true ∧ lt_ba = true) ∧
        (eq_ab = true ↔ [1, 2] = [7]) ∧
        le_ab = (!lt_ba) ∧ ge_ab = (!lt_ab) :=
  ⟨⟨_, rfl, rfl, ⟨rfl, trivial⟩, rfl⟩, ⟨_, rfl, rfl, ⟨rfl, rfl, trivial⟩, rfl⟩,
    C20_strict_total_order two_lists 1 0 0 [(1, 1), (2, 2)] [(0, 7)] [(0, 7)] 3
      ⟨_, rfl, rfl, ⟨rfl, rfl, trivial⟩, rfl⟩ ⟨_, rfl, rfl, ⟨rfl, trivial⟩, rfl⟩
      ⟨_, rfl, rfl, ⟨rfl, trivial⟩, rfl⟩ (by decide) (by decide)⟩

theorem perform_step {α : Type} {m : Mem α} {a b : Nat} {ca cb : List (Nat × α)}
    (op : Mutation α) (ha : Rep m a ca) (hb : Rep m b cb) (hab : a ≠ b)
    (hdisj : ∀ c ∈ ca, ∀ d ∈ cb, c.1 ≠ d.1) (hok : m.ok)
    (hpre : op.precondition ca.length) :
    (op.perform a m).ends_with
      (fun _ m1 => ∃ ca1, Rep m1 a ca1 ∧ ca1.length = op.size_after ca.length ∧
        Rep m1 b cb ∧ (∀ c ∈ ca1, ∀ d ∈ cb, c.1 ≠ d.1) ∧ m1.ok)
      (fun m1 => m1 = m) := by
  have hcb : ∀ d ∈ cb, d.1 < m.heap.length := by
    obtain ⟨l, -, -, hs, -⟩ := hb
    exact Seg_lt hs
  have hbys : ∀ (m1 : Mem α) (as : List Nat), Frame m m1 [a] as →
      (∀ x ∈ as, x ∈ ca.map Prod.fst) → Rep m1 b cb := by
    intro m1 as hf hsub
    refine Rep_frame hb hf (by simpa using Ne.symm hab) (fun d hd hmem => ?_)
    obtain ⟨c, hc, hcd⟩ := List.mem_map.1 (hsub _ hmem)
    exact hdisj c hc d hd hcd
  cases op with
  | push_front v =>
    obtain ⟨hgood, hbad⟩ := PushFront_spec v ha hok
    by_cases hr : m.heap.length < m.limit
    · obtain ⟨m1, e, r, -, f⟩ := hgood hr
      refine ends_with_ok e ⟨_, r, rfl, hbys m1 [] f (by simp), ?_, f.ok hok⟩
      intro c hc d hd
      rcases List.mem_cons.1 hc with rfl | hc
      · exact Nat.ne_of_gt (hcb d hd)
      · exact hdisj c hc d hd
    · exact ends_with_bad (hbad (by omega)) rfl
  | pop_front =>
    have hne : ca ≠ [] := by
      intro h
      rw [h] at hpre
      exact absurd hpre (by simp [Mutation.precondition])
    obtain ⟨c, rest, rfl⟩ := List.exists_cons_of_ne_nil hne
    obtain ⟨m1, e, r, -, -, f⟩ := PopFront_spec c rest ha hok
    exact ends_with_ok e ⟨rest, r, rfl, hbys m1 [c.1] f (by simp),
      fun x hx d hd => hdisj x (List.mem_cons_of_mem _ hx) d hd, f.ok hok⟩
  | insert_after i v =>
    have hi : i ≤ ca.length := hpre
    have hadv := advance_cursor_at ha i 0 (by omega)
    rw [Nat.zero_add, cursor_at_eq a ca i hi] at hadv
    have hsplit : ca.take i ++ ca.drop i = ca := List.take_append_drop i ca
    have ha1 : Rep m a (ca.take i ++ ca.drop i) := by rw [hsplit]; exact ha
    obtain ⟨hgood, hbad⟩ := InsertAfter_spec (ca.take i) (ca.drop i) v ha1 hok
    have hunf : ∀ r : Outcome α BasicIterator,
        InsertAfter a ⟨pos_after a (ca.take i)⟩ v m = r →
        (Mutation.insert_after i v).perform a m =
          M.bind (fun _ => r) (fun _ => (pure () : M α Unit)) m := by
      intro r hr
      simp only [Mutation.perform, before_begin, bind_apply, M.bind, pure_apply]
      rw [show (⟨Ptr.sentinel a⟩ : BasicIterator) = cursor_at a ca 0 from rfl, hadv]
      simp only [hr]
    by_cases hr : m.heap.length < m.limit
    · obtain ⟨m1, e, r, -, f⟩ := hgood hr
      have e1 := hunf _ e
      simp only [M.bind, pure_apply] at e1
      refine ends_with_ok e1 ⟨_, r, ?_, hbys m1 _ f (fun x hx => ?_), ?_, f.ok hok⟩
      · have := congrArg List.length hsplit
        simp only [List.length_append, List.length_cons, Mutation.size_after] at this ⊢
        omega
      · obtain ⟨c, hc, rfl⟩ := List.mem_map.1 hx
        exact List.mem_map_of_mem _ (List.mem_of_mem_take hc)
      · intro c hc d hd
        rcases List.mem_append.1 hc with h | h
        · exact hdisj c (List.mem_of_mem_take h) d hd
        · rcases List.mem_cons.1 h with rfl | h
          · exact Nat.ne_of_gt (hcb d hd)
          · exact hdisj c (List.mem_of_mem_drop h) d hd
    · have e1 := hunf _ (hbad (by omega))
      simp only [M.bind] at e1
      exact ends_with_bad e1 rfl
  | erase_after i =>
    have hi : i < ca.length := hpre
    have hadv := advance_cursor_at ha i 0 (by omega)
    rw [Nat.zero_add, cursor_at_eq a ca i (le_of_lt hi)] at hadv
    have hsplit : ca.take i ++ ca[i] :: ca.drop (i + 1) = ca := by
      rw [← List.drop_eq_getElem_cons hi]
      exact List.take_append_drop i ca
    have ha1 : Rep m a (ca.take i ++ ca[i] :: ca.drop (i + 1)) := by rw [hsplit]; exact ha
    obtain ⟨m1, e, r, -, -, f⟩ := EraseAfter_spec (ca.take i) ca[i] (ca.drop (i + 1)) ha1 hok
    have e1 : (Mutation.erase_after i).perform a m = .ok () m1 := by
      simp only [Mutation.perform, before_begin, bind_apply, M.bind, pure_apply]
      rw [show (⟨Ptr.sentinel a⟩ : BasicIterator) = cursor_at a ca 0 from rfl, hadv]
      simp only [e]
    refine ends_with_ok e1 ⟨_, r, ?_, hbys m1 _ f (fun x hx => ?_), ?_, f.ok hok⟩
    · simp only [List.length_append, List.length_take, List.length_drop, Mutation.size_after]
      omega
    · obtain ⟨c, hc, rfl⟩ := List.mem_map.1 hx
      refine List.mem_map_of_mem _ ?_
      rw [← hsplit]
      rcases List.mem_append.1 hc with h | h
      · exact List.mem_append_left _ h
      · simp only [List.mem_singleton] at h
        rw [h]
        simp
    · intro c hc d hd
      rcases List.mem_append.1 hc with h | h
      · exact hdisj c (List.mem_of_mem_take h) d hd
      · exact hdisj c (List.mem_of_mem_drop h) d hd

theorem perform_all_spec {α : Type} {a b : Nat} {cb : List (Nat × α)} (hab : a ≠ b)
    (ops : List (Mutation α)) :
    ∀ (m : Mem α) (ca : List (Nat × α)), Rep m a ca → Rep m b cb →
      (∀ c ∈ ca, ∀ d ∈ cb, c.1 ≠ d.1) → m.ok → within_preconditions ca.length ops →
      (perform_all a ops m).ends_with
        (fun _ m1 => Rep m1 b cb ∧ Invariant m1 a) (fun m1 => Rep m1 b cb ∧ Invariant m1 a) := by
  induction ops with
  | nil =>
    intro m ca ha hb _ _ _
    exact ⟨hb, ca, ha⟩
  | cons op ops ih =>
    intro m ca ha hb hdisj hok hpre
    have hstep := perform_step op ha hb hab hdisj hok hpre.1
    have hunf : perform_all a (op :: ops) m =
        M.bind (op.perform a) (fun _ => perform_all a ops) m := rfl
    rw [hunf]
    cases hres : op.perform a m with
    | ok u m1 =>
      rw [hres] at hstep
      obtain ⟨ca1, r1, l1, rb1, d1, ok1⟩ := hstep
      rw [bind_ok hres]
      exact ih m1 ca1 r1 rb1 d1 ok1 (l1 ▸ hpre.2)
    | bad_alloc m1 =>
      rw [hres] at hstep
      have hm : m1 = m := hstep
      subst hm
      simp only [M.bind, hres]
      exact ⟨hb, ca, ha⟩
    | assert_fail =>
      rw [hres] at hstep
      exact absurd hstep id
    | undefined =>
      rw [hres] at hstep
      exact absurd hstep id
    | out_of_fuel =>
      rw [hres] at hstep
      exact absurd hstep id

theorem ends_with_mono {α β : Type} {r : Outcome α β} {P P1 : β → Mem α → Prop}
    {Q Q1 : Mem α → Prop} (h : r.ends_with P Q) (hp : ∀ v m1, P v m1 → P1 v m1)
    (hq : ∀ m1, Q m1 → Q1 m1) : r.ends_with P1 Q1 := by
  cases r with
  | ok v m1 => exact hp v m1 h
  | bad_alloc m1 => exact hq m1 h
  | assert_fail => exact h
  | undefined => exact h
  | out_of_fuel => exact h

theorem mutations_leave_other_list {α : Type} {m1 : Mem α} {s t : Nat}
    {cs ct : List (Nat × α)} (rs : Rep m1 s cs) (rt : Rep m1 t ct) (hts : t ≠ s)
    (hdisj : ∀ c ∈ cs, ∀ d ∈ ct, c.1 ≠ d.1) (hok : m1.ok)
    (hv : ct.map Prod.snd = cs.map Prod.snd) :
    (∀ ops : List (Mutation α), within_preconditions cs.length ops →
        (perform_all t ops m1).ends_with
          (fun _ m2 => Observes m2 s (cs.map Prod.snd))
          (fun m2 => Observes m2 s (cs.map Prod.snd))) ∧
      (∀ ops : List (Mutation α), within_preconditions cs.length ops →
        (perform_all s ops m1).ends_with
          (fun _ m2 => Observes m2 t (cs.map Prod.snd))
          (fun m2 => Observes m2 t (cs.map Prod.snd))) := by
  have hlen : ct.length = cs.length := by
    have := congrArg List.length hv
    simpa using this
  constructor
  · intro ops hpre
    refine ends_with_mono (perform_all_spec hts ops m1 ct rt rs
      (fun c hc d hd => (hdisj d hd c hc).symm) hok (hlen ▸ hpre)) ?_ ?_
    · exact fun _ m2 h => Rep_observes h.1
    · exact fun m2 h => Rep_observes h.1
  · intro ops hpre
    refine ends_with_mono (perform_all_spec (Ne.symm hts) ops m1 cs rs rt hdisj hok hpre) ?_ ?_
    · exact fun _ m2 h => hv ▸ Rep_observes h.1
    · exact fun m2 h => hv ▸ Rep_observes h.1

end SLL
